import Mathlib

/-!
# Verification of the ESP_web Meet Lineup Optimization Engine

A shallow embedding, in Lean 4, of the lineup-optimization engine of the
ESP_web repository (`src/utils.py`, `src/assignment.py`, `src/scoring.py`),
together with proofs settling the specification claims about it.

Modelling conventions:

* Python strings are modelled as `List Char` for the character-level
  operations (`strip`, `split(':')`, `replace`, numeric parsing) and as
  `String` where values are only compared for equality (swimmer names,
  event labels).
* Python floats are modelled as exact rationals (`ℚ`).  The value
  `float('inf')`, used by the code as the "no valid time" sentinel, is
  modelled as `none` in `Option ℚ`.  Binary floating-point representation
  artifacts are outside the model; `%.2f` formatting is modelled as exact
  round-half-to-even at two decimals.
* Python's `int(...)` and `float(...)` string conversions are modelled on
  plain decimal literals (optional sign, digits, optional single dot);
  exotic accepted forms (exponents, `"inf"`, underscores) are outside the
  model and map to the failure case.
* `pandas` data frames are modelled as lists of records.  The wide
  (swimmer × event-column) frame is a list of `WideRow`, a long frame a
  list of `LongRow`; `pivot_to_long_format` is treated as applied upstream,
  so the `.empty` checks of the source become emptiness of the row list.
  `pandas.sort_values` (deterministic, but with unspecified tie order) is
  modelled as a stable insertion sort on the numeric key.
* Python dictionaries keyed by strings are modelled as total functions
  `String → ℕ` defaulting to `0` (for the `defaultdict(int)` counters) or
  as association lists in insertion order (for the nested relay-time
  dictionaries, where the source later iterates over them).
* The `ValueError` that `min()` raises on an empty sequence, which
  `create_relay_teams` does not catch, is modelled by returning
  `Except.error ()`.
-/

namespace ESP

/-! ## Character-level utilities (model of Python string primitives) -/

/-- Characters treated as whitespace by the model of Python `str.strip()`. -/
def isSpaceChar (c : Char) : Bool :=
  c = ' ' || c = '\t' || c = '\n' || c = '\r'

/-- Model of Python `str.strip()`: drop whitespace from both ends. -/
def stripChars (l : List Char) : List Char :=
  ((l.dropWhile isSpaceChar).reverse.dropWhile isSpaceChar).reverse

/-- Decimal digit test, `'0' ≤ c ≤ '9'`. -/
def isDigitChar (c : Char) : Bool :=
  '0' ≤ c && c ≤ '9'

/-- Numeric value of a digit character. -/
def digitVal (c : Char) : ℕ :=
  c.toNat - '0'.toNat

/-- Value of a digit string read left to right. -/
def digitsVal (l : List Char) : ℕ :=
  l.foldl (fun a c => a * 10 + digitVal c) 0

/-- Model of Python `int(...)` on an unsigned decimal literal: all characters
must be digits and there must be at least one. -/
def parseDigits (l : List Char) : Option ℕ :=
  if l ≠ [] ∧ l.all isDigitChar then some (digitsVal l) else none

/-- Model of Python `int(...)`: optional sign followed by digits. -/
def parseIntChars (l : List Char) : Option ℤ :=
  match l with
  | [] => none
  | c :: cs =>
    if c = '-' then (parseDigits cs).map (fun n => -(n : ℤ))
    else if c = '+' then (parseDigits cs).map (fun n => (n : ℤ))
    else (parseDigits (c :: cs)).map (fun n => (n : ℤ))

/-- The rational `i + f / 10^k` built with `mkRat` (kernel-computable;
the arithmetic `Add`/`Div` instances on `ℚ` are irreducible). -/
def decimalVal (i f k : ℕ) : ℚ :=
  mkRat (i * 10 ^ k + f) (10 ^ k)

/-- Model of Python `float(...)` on an unsigned decimal literal:
`digits`, `digits.digits`, `digits.`, or `.digits`, at least one digit.
The value is `integer part + fractional digits / 10^(their count)`. -/
def parseUnsignedFloat (l : List Char) : Option ℚ :=
  let ip := l.takeWhile (fun c => c ≠ '.')
  let rest := l.dropWhile (fun c => c ≠ '.')
  if ip.all isDigitChar then
    match rest with
    | [] => if ip.isEmpty then none else some (digitsVal ip : ℚ)
    | _ :: fp =>
      if fp.all isDigitChar && (!ip.isEmpty || !fp.isEmpty) then
        some (decimalVal (digitsVal ip) (digitsVal fp) fp.length)
      else none
  else none

/-- The rational `i + q` for an integer `i`, built with `mkRat`
(kernel-computable). -/
def intPlusRat (i : ℤ) (q : ℚ) : ℚ :=
  mkRat (i * q.den + q.num) q.den

/-- The rational `a + b`, built with `mkRat` (kernel-computable). -/
def qAdd (a b : ℚ) : ℚ :=
  mkRat (a.num * b.den + b.num * a.den) (a.den * b.den)

/-- The smaller of two rationals, as Python `min` computes it
(kernel-computable). -/
def qMin (a b : ℚ) : ℚ :=
  if b < a then b else a

/-- Model of Python `float(...)`: optional sign followed by an unsigned
decimal literal. -/
def parseFloatChars (l : List Char) : Option ℚ :=
  match l with
  | [] => none
  | c :: cs =>
    if c = '-' then (parseUnsignedFloat cs).map (fun q => -q)
    else if c = '+' then parseUnsignedFloat cs
    else parseUnsignedFloat (c :: cs)

/-- Model of Python `str.split(sep)` for a one-character separator: no
collapsing, empty pieces preserved, `[[]]` on the empty string. -/
def splitOnSep (sep : Char) : List Char → List (List Char)
  | [] => [[]]
  | c :: cs =>
    if c = sep then [] :: splitOnSep sep cs
    else
      match splitOnSep sep cs with
      | [] => [[c]]
      | h :: t => (c :: h) :: t

/-! ## `utils.time_to_seconds` -/

/-- Model of `utils.time_to_seconds` on the character list of the input
string.  `none` models the `float('inf')` sentinel returned for every
invalid input.  Mirrors the source: the empty/whitespace and `'nan'` checks,
then the single-colon branch `int(parts[0]) * 60 + float(parts[1])`, and the
plain `float(s)` fallback for everything else (Python raises `ValueError`
inside `try` blocks there, returning the sentinel). -/
def timeToSecondsChars (l : List Char) : Option ℚ :=
  if stripChars l = [] then none
  else if l.map Char.toLower = ['n', 'a', 'n'] then none
  else
    let s := stripChars l
    if s.contains ':' then
      match splitOnSep ':' s with
      | [a, b] =>
        match parseIntChars a, parseFloatChars b with
        | some m, some sec => some (intPlusRat (m * 60) sec)
        | _, _ => none
      | _ => parseFloatChars s
    else parseFloatChars s

/-- `utils.time_to_seconds` on a `String`. -/
def time_to_seconds (s : String) : Option ℚ :=
  timeToSecondsChars s.data

/-! ## Decimal rendering (model of Python number formatting) -/

/-- Render the digits of a natural number, most significant first
(model of `str(n)` / `"%d"`), with an accumulator; structural recursion on
a fuel argument so that the kernel can evaluate it (any fuel `≥ n` gives
the same result). -/
def natDigitsGo : ℕ → ℕ → List Char → List Char
  | 0, n, acc => Nat.digitChar n :: acc
  | fuel + 1, n, acc =>
    if n < 10 then Nat.digitChar n :: acc
    else natDigitsGo fuel (n / 10) (Nat.digitChar (n % 10) :: acc)

/-- Decimal digit string of a natural number. -/
def natToChars (n : ℕ) : List Char :=
  natDigitsGo n n []

/-- Two-digit rendering (zero-padded) of `m < 100`. -/
def twoDigitChars (m : ℕ) : List Char :=
  if m < 10 then '0' :: [Nat.digitChar m] else natToChars m

/-- Render a centisecond count `c` as `"I.FF"` (model of `"%.2f"` applied
to `c / 100` after rounding). -/
def renderCenti (c : ℕ) : List Char :=
  natToChars (c / 100) ++ '.' :: twoDigitChars (c % 100)

/-- Render a centisecond count `c` padded to overall width 5 (model of
`"%05.2f"`): one leading zero when the integer part has a single digit. -/
def renderCentiPad (c : ℕ) : List Char :=
  (if c / 100 < 10 then ['0'] else []) ++ renderCenti c

/-- Round-half-to-even of a rational to an integer (model of the rounding
performed by `"%.2f"`, applied here to `100 * x`), computed on the
numerator and denominator: `f` is the floor, `twice` is `2·den·fract`. -/
def roundHalfEven (x : ℚ) : ℤ :=
  let f := x.num.fdiv x.den
  let twice := 2 * (x.num - f * x.den)
  if twice < (x.den : ℤ) then f
  else if (x.den : ℤ) < twice then f + 1
  else if f % 2 = 0 then f else f + 1

/-- `100 * x`, built with `mkRat` (kernel-computable). -/
def qScale100 (x : ℚ) : ℚ :=
  mkRat (100 * x.num) x.den

/-! ## `utils.seconds_to_time_string` -/

/-- `int(q // 60)`: the floor of `q / 60`, computed on the numerator and
denominator (kernel-computable). -/
def floorDiv60 (q : ℚ) : ℤ :=
  q.num.fdiv (60 * q.den)

/-- Model of `utils.seconds_to_time_string` on a finite number of seconds:
`minutes = int(seconds // 60)`, `remaining = seconds % 60`, then
`f"{minutes}:{remaining:05.2f}"` when `minutes > 0` and `f"{remaining:.2f}"`
otherwise. -/
def secondsToTimeChars (q : ℚ) : List Char :=
  let m : ℤ := floorDiv60 q
  let r : ℚ := intPlusRat (-(60 * m)) q
  let c : ℤ := roundHalfEven (qScale100 r)
  if 0 < m then natToChars m.toNat ++ ':' :: renderCentiPad c.toNat
  else renderCenti c.toNat

/-- `utils.seconds_to_time_string`, with `none` modelling the
`float('inf')` / `NaN` sentinel input (formatted as `"NT"`). -/
def seconds_to_time_string : Option ℚ → List Char
  | none => ['N', 'T']
  | some q => secondsToTimeChars q

/-! ## Data model -/

/-- One row of the wide (pivot) time frame: a swimmer plus the cells of the
event columns.  A missing pair models a `NaN` cell (or an absent column,
which the source treats identically apart from log output). -/
structure WideRow where
  swimmer : String
  cells : List (String × String)
deriving DecidableEq, Repr

/-- One row of the long time frame (`Swimmer`, `Event`, `Time`). -/
structure LongRow where
  swimmer : String
  event : String
  time : String
deriving DecidableEq, Repr

/-- A candidate for a slot: swimmer name, original time string, and the
parsed seconds (`Time_secs`). -/
structure Cand where
  swimmer : String
  timeStr : String
  secs : ℚ
deriving DecidableEq, Repr

/-- One row of the relay lineup output
(`Relay`, `Leg`, `Swimmer`, `Time`). -/
structure RelayEntry where
  relay : String
  leg : String
  swimmer : String
  time : String
deriving DecidableEq, Repr

/-- One row of the individual lineup output.  `expectedPlace` is `none` for
the plain assignor and `some _` for the strategic one (the
`Expected_Place` column). -/
structure Assign where
  event : String
  swimmer : String
  time : String
  place : ℕ
  expectedPlace : Option ℕ
deriving DecidableEq, Repr

/-- The Event-Count Ledger: per-swimmer committed-event counts, a model of
`defaultdict(int)` keyed by swimmer name. -/
def Counts : Type := String → ℕ

/-- Increment one swimmer's ledger count. -/
def bumpCount (k : Counts) (s : String) : Counts :=
  fun x => if x = s then k x + 1 else k x

/-- The all-zero ledger (a fresh `defaultdict(int)` / empty dict). -/
def zeroCounts : Counts := fun _ => 0

/-! ## Sorting (model of `pandas.sort_values` on the seconds column) -/

/-- Insert into a list sorted by `key`, before the first strictly larger
element (stable insertion). -/
def insertByKey {α : Type} (key : α → ℚ) (x : α) : List α → List α
  | [] => [x]
  | y :: ys => if key x ≤ key y then x :: y :: ys else y :: insertByKey key x ys

/-- Stable sort by a rational key, ascending. -/
def sortOn {α : Type} (key : α → ℚ) : List α → List α
  | [] => []
  | x :: xs => insertByKey key x (sortOn key xs)

/-- First-occurrence deduplication with an accumulator of seen values
(model of `pandas.unique`, which preserves first-appearance order). -/
def dedupFirstAux : List String → List String → List String
  | [], _ => []
  | x :: xs, seen =>
    if x ∈ seen then dedupFirstAux xs seen else x :: dedupFirstAux xs (x :: seen)

/-- First-occurrence deduplication. -/
def dedupFirst (l : List String) : List String :=
  dedupFirstAux l []

/-! ## `assignment.create_relay_teams` -/

/-- The candidate pool of one stroke column: rows with a cell for the
column, non-empty, parseable (`Time_secs != inf`), sorted ascending by
seconds — the `stroke_swimmers[name]` lists of the source. -/
def strokeSwimmers (t : List WideRow) (stroke : String) : List Cand :=
  sortOn Cand.secs (t.filterMap (fun r =>
    match r.cells.lookup stroke with
    | none => none
    | some ts =>
      if ts = "" then none
      else
        match time_to_seconds ts with
        | none => none
        | some q => some ⟨r.swimmer, ts, q⟩))

/-- The `(stroke column, leg name)` pairs of each known relay type, in leg
order; `none` for an unknown relay event (the source logs and skips it). -/
def relayStrokes (ev : String) : Option (List (String × String)) :=
  if ev = "200 Medley Relay" then
    some [("50 back", "Backstroke"), ("50 breast", "Breaststroke"),
          ("50 fly", "Butterfly"), ("50 free", "Freestyle")]
  else if ev = "400 Medley Relay" then
    some [("100 back", "Backstroke"), ("100 breast", "Breaststroke"),
          ("100 fly", "Butterfly"), ("100 free", "Freestyle")]
  else if ev = "200 Free Relay" then
    some [("50 free", "Leg 1"), ("50 free", "Leg 2"),
          ("50 free", "Leg 3"), ("50 free", "Leg 4")]
  else if ev = "400 Free Relay" then
    some [("100 free", "Leg 1"), ("100 free", "Leg 2"),
          ("100 free", "Leg 3"), ("100 free", "Leg 4")]
  else none

/-- Whether the relay type takes the freestyle-relay branch of the source. -/
def isFreeRelay (ev : String) : Bool :=
  ev = "200 Free Relay" || ev = "400 Free Relay"

/-- String of a natural number (used for the `Leg {i+1}` labels). -/
def natStr (n : ℕ) : String :=
  ⟨natToChars n⟩

/-- Free-relay selection loop: scan the sorted freestyle list and keep the
first `k` swimmers not in `used`, extending `used` with each kept one
(the `for swimmer ... if swimmer not in used_swimmers and len < 4` loop). -/
def pickFreeAux : ℕ → List Cand → List String → List Cand × List String
  | _, [], used => ([], used)
  | k, c :: cs, used =>
    if k = 0 then ([], used)
    else if c.swimmer ∈ used then pickFreeAux k cs used
    else
      let rest := pickFreeAux (k - 1) cs (c.swimmer :: used)
      (c :: rest.1, rest.2)

/-- The squad name `f"{relay_event} {'A' if relay_num == 0 else 'B'}"`. -/
def squadName (ev : String) (i : ℕ) : String :=
  ev ++ (if i = 0 then " A" else " B")

/-- The rows of one freestyle squad: `Leg i+1` labels in list order
(Python's `enumerate` over the four picked swimmers). -/
def freeEntries (nm : String) : ℕ → List Cand → List RelayEntry
  | _, [] => []
  | i, c :: cs =>
    ⟨nm, "Leg " ++ natStr (i + 1), c.swimmer, c.timeStr⟩ :: freeEntries nm (i + 1) cs

/-- The freestyle-relay branch: for each relay index, pick 4 distinct
available swimmers; emit the squad (and count one relay per swimmer) only
when 4 were found.  `used` persists across the A and B squads either way. -/
def freeRelayLoop (ev : String) (allFree : List Cand) :
    List ℕ → List String → Counts → List RelayEntry × List String × Counts
  | [], used, k => ([], used, k)
  | i :: rest, used, k =>
    let nm := squadName ev i
    let picked := pickFreeAux 4 allFree used
    if picked.1.length = 4 then
      let entries := freeEntries nm 0 picked.1
      let k' := picked.1.foldl (fun kk c => bumpCount kk c.swimmer) k
      let next := freeRelayLoop ev allFree rest picked.2 k'
      (entries ++ next.1, next.2.1, next.2.2)
    else
      freeRelayLoop ev allFree rest picked.2 k

/-- First candidate of a stroke pool whose swimmer is not yet used in this
relay event. -/
def firstAvail : List Cand → List String → Option Cand
  | [], _ => none
  | c :: cs, used => if c.swimmer ∈ used then firstAvail cs used else some c

/-- Medley leg loop: assign the best available swimmer per leg in stroke
order; stop at the first unfillable leg (`break`), keeping the swimmers
already taken in `used` (as the source does). -/
def medleyLegs : List (String × List Cand) → List String →
    List (String × Cand) × List String
  | [], used => ([], used)
  | (nm, cands) :: rest, used =>
    match firstAvail cands used with
    | none => ([], used)
    | some c =>
      let next := medleyLegs rest (c.swimmer :: used)
      ((nm, c) :: next.1, next.2)

/-- The medley-relay branch: for each relay index build the four legs; emit
the squad (and count one relay per swimmer) only when all 4 legs were
filled.  `used` persists across the A and B squads either way. -/
def medleyRelayLoop (ev : String) (pools : List (String × List Cand)) :
    List ℕ → List String → Counts → List RelayEntry × List String × Counts
  | [], used, k => ([], used, k)
  | i :: rest, used, k =>
    let nm := squadName ev i
    let built := medleyLegs pools used
    if built.1.length = 4 then
      let entries := built.1.map (fun p =>
        (⟨nm, p.1, p.2.swimmer, p.2.timeStr⟩ : RelayEntry))
      let k' := built.1.foldl (fun kk p => bumpCount kk p.2.swimmer) k
      let next := medleyRelayLoop ev pools rest built.2 k'
      (entries ++ next.1, next.2.1, next.2.2)
    else
      medleyRelayLoop ev pools rest built.2 k

/-- Process one requested relay event.  `Except.error ()` models the
uncaught `ValueError` of `min()` over an empty sequence, raised when every
stroke pool of the event is empty (the `if min_swimmers < 1: continue`
guard of the source is unreachable because empty pools are filtered out of
the `min`). -/
def relayPools (t : List WideRow) (pairs : List (String × String)) :
    List (String × List Cand) :=
  pairs.map (fun p => (p.2, strokeSwimmers t p.1))

/-- The lengths of the non-empty stroke pools, in leg order (the values the
source's `min(... if swimmers)` ranges over). -/
def poolLens (pools : List (String × List Cand)) : List ℕ :=
  (pools.map (fun p => p.2.length)).filter (fun n => n ≠ 0)

/-- The free-relay branch of `processRelayEvent`. -/
def freeBranch (ev : String) (pools : List (String × List Cand)) (k : Counts) :
    List RelayEntry × Counts :=
  let res := freeRelayLoop ev (pools.headI).2
    (List.range (min 2 ((pools.headI).2.length / 4))) [] k
  (res.1, res.2.2)

/-- The medley-relay branch of `processRelayEvent`. -/
def medleyBranch (ev : String) (pools : List (String × List Cand)) (minS : ℕ)
    (k : Counts) : List RelayEntry × Counts :=
  let res := medleyRelayLoop ev pools (List.range (min 2 minS)) [] k
  (res.1, res.2.2)

def processRelayEvent (t : List WideRow) (ev : String) (k : Counts) :
    Except Unit (List RelayEntry × Counts) :=
  match relayStrokes ev with
  | none => .ok ([], k)
  | some pairs =>
    match poolLens (relayPools t pairs) with
    | [] => .error ()
    | n :: ns =>
      if ns.foldl Nat.min n < 1 then .ok ([], k)
      else if isFreeRelay ev then .ok (freeBranch ev (relayPools t pairs) k)
      else .ok (medleyBranch ev (relayPools t pairs) (ns.foldl Nat.min n) k)

/-- Fold of `processRelayEvent` over the requested relay events, threading
the relay-count ledger and concatenating the lineups. -/
def createRelayGo (t : List WideRow) : List String → Counts →
    Except Unit (List RelayEntry × Counts)
  | [], k => .ok ([], k)
  | ev :: rest, k =>
    match processRelayEvent t ev k with
    | .error e => .error e
    | .ok (es, k') =>
      match createRelayGo t rest k' with
      | .error e => .error e
      | .ok (more, k2) => .ok (es ++ more, k2)

/-- Model of `assignment.create_relay_teams`.  The `max_total_events`
parameter is accepted, as in the source, where it is never read. -/
def create_relay_teams (t : List WideRow) (relay_events : List String)
    (max_total_events : ℕ) : Except Unit (List RelayEntry × Counts) :=
  let _ := max_total_events
  createRelayGo t relay_events zeroCounts

/-- The relay lineup rows of a builder result (`[]` when it raised). -/
def relayEntriesOf (r : Except Unit (List RelayEntry × Counts)) : List RelayEntry :=
  match r with
  | .ok x => x.1
  | .error _ => []

/-- The relay-count ledger of a builder result (zero when it raised). -/
def relayCountsOf (r : Except Unit (List RelayEntry × Counts)) : Counts :=
  match r with
  | .ok x => x.2
  | .error _ => zeroCounts

/-! ## `assignment.round_robin_assignment` -/

/-- The per-event candidate list of the individual assignors: rows of the
event, parsed, invalid times removed, sorted ascending by seconds. -/
def eventCands (t : List LongRow) (ev : String) : List Cand :=
  sortOn Cand.secs (t.filterMap (fun r =>
    if r.event = ev then
      match time_to_seconds r.time with
      | none => none
      | some q => some ⟨r.swimmer, r.time, q⟩
    else none))

/-- The inner assignment loop of `round_robin_assignment`: scan the sorted
candidates with the running `assigned_count` `a`; assign whenever the
swimmer's ledger is below `m` and the event has fewer than `p` slots taken,
breaking out once `p` is reached. -/
def assignLoop (ev : String) (m p : ℕ) : List Cand → ℕ → Counts → List Assign × Counts
  | [], _, k => ([], k)
  | c :: cs, a, k =>
    if k c.swimmer < m ∧ a < p then
      let k' := bumpCount k c.swimmer
      if p ≤ a + 1 then ([⟨ev, c.swimmer, c.timeStr, a + 1, none⟩], k')
      else
        let next := assignLoop ev m p cs (a + 1) k'
        (⟨ev, c.swimmer, c.timeStr, a + 1, none⟩ :: next.1, next.2)
    else assignLoop ev m p cs a k

/-- Fold of the per-event loop over the events in first-appearance order,
threading the ledger. -/
def roundRobinGo (t : List LongRow) (m p : ℕ) : List String → Counts →
    List Assign × Counts
  | [], k => ([], k)
  | ev :: evs, k =>
    let res := assignLoop ev m p (eventCands t ev) 0 k
    let next := roundRobinGo t m p evs res.2
    (res.1 ++ next.1, next.2)

/-- Model of `assignment.round_robin_assignment` on a long-format frame:
one pass over `times_df['Event'].unique()`, assigning per event the fastest
candidates whose ledger count is below `max_events_per_swimmer`, up to
`swimmers_per_event` of them.  An empty frame yields the empty lineup and
an empty dict. -/
def round_robin_assignment (t : List LongRow) (max_events_per_swimmer : ℕ)
    (swimmers_per_event : ℕ) (swimmer_relay_counts : Counts) : List Assign × Counts :=
  if t = [] then ([], zeroCounts)
  else roundRobinGo t max_events_per_swimmer swimmers_per_event
    (dedupFirst (t.map LongRow.event)) swimmer_relay_counts

/-! ## `assignment.strategic_dual_meet_assignment` -/

/-- Inner loop of the strategic assignor: as `assignLoop`, additionally
attaching `Expected_Place = 1 + #(opponent times strictly faster)`. -/
def stratLoop (ev : String) (m p : ℕ) (oppTimes : List ℚ) :
    List Cand → ℕ → Counts → List Assign × Counts
  | [], _, k => ([], k)
  | c :: cs, a, k =>
    if k c.swimmer < m ∧ a < p then
      let pl := 1 + oppTimes.countP (fun ot => decide (ot < c.secs))
      let k' := bumpCount k c.swimmer
      if p ≤ a + 1 then ([⟨ev, c.swimmer, c.timeStr, a + 1, some pl⟩], k')
      else
        let next := stratLoop ev m p oppTimes cs (a + 1) k'
        (⟨ev, c.swimmer, c.timeStr, a + 1, some pl⟩ :: next.1, next.2)
    else stratLoop ev m p oppTimes cs a k

/-- Fold of the strategic per-event loop over a given event order; events
with no valid own time are skipped. -/
def stratGo (u o : List LongRow) (m p : ℕ) : List String → Counts →
    List Assign × Counts
  | [], k => ([], k)
  | ev :: evs, k =>
    let uc := eventCands u ev
    if uc = [] then stratGo u o m p evs k
    else
      let res := stratLoop ev m p ((eventCands o ev).map Cand.secs) uc 0 k
      let next := stratGo u o m p evs res.2
      (res.1 ++ next.1, next.2)

/-- Model of `assignment.strategic_dual_meet_assignment`, parameterized by
the iteration order of the `common_events` set: the source iterates a
Python `set`, whose order is incidental, so a run is modelled as the pair
(inputs, enumeration order of that set). -/
def strategicWithOrder (order : List String) (u o : List LongRow)
    (max_events_per_swimmer swimmers_per_event : ℕ)
    (swimmer_relay_counts : Counts) : List Assign × Counts :=
  if u = [] then ([], zeroCounts)
  else if o = [] then
    round_robin_assignment u max_events_per_swimmer swimmers_per_event
      swimmer_relay_counts
  else stratGo u o max_events_per_swimmer swimmers_per_event order
    swimmer_relay_counts

/-- One enumeration of the `common_events` set: own-frame first-appearance
order restricted to events also present in the opponent frame. -/
def commonEventsList (u o : List LongRow) : List String :=
  (dedupFirst (u.map LongRow.event)).filter (fun ev => ev ∈ o.map LongRow.event)

/-- `assignment.strategic_dual_meet_assignment` run with the canonical
enumeration order. -/
def strategic_dual_meet_assignment (u o : List LongRow)
    (max_events_per_swimmer swimmers_per_event : ℕ)
    (swimmer_relay_counts : Counts) : List Assign × Counts :=
  strategicWithOrder (commonEventsList u o) u o max_events_per_swimmer
    swimmers_per_event swimmer_relay_counts

/-! ## `scoring.calculate_individual_points_vs_opponent` -/

/-- Model of `scoring.calculate_individual_points_vs_opponent`, with the
time inputs already converted to value-or-sentinel form (the source applies
`time_to_seconds` / `float` to each argument first): 9 when the raw
opponent list is empty; otherwise filter invalid opponent times; an invalid
own time scores 0; with no valid opponent time left score 9; otherwise the
9/4/3/2/1/0 cascade over `beaten`, the number of valid opponent times
strictly slower than the own time. -/
def calculate_individual_points_vs_opponent (our : Option ℚ)
    (opponent_times : List (Option ℚ)) : ℕ :=
  if opponent_times = [] then 9
  else
    let opp := opponent_times.filterMap id
    match our with
    | none => 0
    | some q =>
      if opp = [] then 9
      else
        let beaten := opp.countP (fun t => decide (q < t))
        let n := opp.length
        if beaten = n then 9
        else if n - 1 ≤ beaten then 4
        else if n - 2 ≤ beaten then 3
        else if n - 3 ≤ beaten then 2
        else if n - 4 ≤ beaten then 1
        else 0

/-- Modelled from the spec: the individual scoring rule exactly as the
specification words it — "9 points if faster than every opposing time;
4 if beaten by exactly one; 3 if beaten by exactly two; 2 if beaten by
exactly three; 1 if beaten by exactly four; 0 otherwise" — where "beaten
by" counts opposing times strictly faster than the own time. -/
def specIndividualPoints (our : ℚ) (oppValid : List ℚ) : ℕ :=
  if ∀ t ∈ oppValid, our < t then 9
  else
    let beatenBy := oppValid.countP (fun t => decide (t < our))
    if beatenBy = 1 then 4
    else if beatenBy = 2 then 3
    else if beatenBy = 3 then 2
    else if beatenBy = 4 then 1
    else 0

/-! ## `scoring.calculate_relay_times` -/

/-- Sum of the parsed leg times of one relay, `none` when any leg fails to
parse (the `valid_relay` flag of the source). -/
def legsTotal : List RelayEntry → Option ℚ
  | [] => some 0
  | e :: es =>
    match time_to_seconds e.time, legsTotal es with
    | some q, some s => some (qAdd s q)
    | _, _ => none

/-- Bool test for one list being an initial segment of another
(model of Python substring search, step predicate). -/
def startsWithChars : List Char → List Char → Bool
  | [], _ => true
  | _ :: _, [] => false
  | p :: ps, c :: cs => p = c && startsWithChars ps cs

/-- Model of Python `str.replace(pat, '')`: remove every (non-overlapping,
leftmost-first) occurrence of `pat`; structural recursion on a fuel
argument (any fuel `≥` the list length gives the same result). -/
def removeSubGo (pat : List Char) : ℕ → List Char → List Char
  | _, [] => []
  | 0, l => l
  | fuel + 1, c :: cs =>
    if startsWithChars pat (c :: cs) ∧ pat ≠ [] then
      removeSubGo pat fuel ((c :: cs).drop pat.length)
    else c :: removeSubGo pat fuel cs

/-- Model of Python `str.replace(pat, '')`. -/
def removeSubAll (pat l : List Char) : List Char :=
  removeSubGo pat l.length l

/-- Model of Python `pat in s` (substring containment). -/
def hasSubChars (pat : List Char) : List Char → Bool
  | [] => startsWithChars pat []
  | c :: cs => startsWithChars pat (c :: cs) || hasSubChars pat cs

/-- `relay_name.replace(' A', '').replace(' B', '')` of the source. -/
def relayBaseName (nm : String) : String :=
  ⟨removeSubAll (' ' :: ['B']) (removeSubAll (' ' :: ['A']) nm.data)⟩

/-- `'A' if ' A' in relay_name else 'B' if ' B' in relay_name else 'A'`. -/
def relayTeamLetter (nm : String) : Char :=
  if hasSubChars (' ' :: ['A']) nm.data then 'A'
  else if hasSubChars (' ' :: ['B']) nm.data then 'B'
  else 'A'

/-- Update (or append, in insertion order) one key of the inner
letter-to-time dictionary. -/
def updInner (letter : Char) (v : ℚ) : List (Char × ℚ) → List (Char × ℚ)
  | [] => [(letter, v)]
  | (c, w) :: rest =>
    if c = letter then (c, v) :: rest else (c, w) :: updInner letter v rest

/-- Update (or append) one base-relay key of the nested dictionary
`relay_times[base][letter] = total`. -/
def updNested (base : String) (letter : Char) (v : ℚ) :
    List (String × List (Char × ℚ)) → List (String × List (Char × ℚ))
  | [] => [(base, [(letter, v)])]
  | (b, inner) :: rest =>
    if b = base then (b, updInner letter v inner) :: rest
    else (b, inner) :: updNested base letter v rest

/-- The distinct relay names of a relay frame, in first-appearance order
(`relay_df['Relay'].unique()`). -/
def relayNamesOf (entries : List RelayEntry) : List String :=
  dedupFirst (entries.map RelayEntry.relay)

/-- Loop of `calculate_relay_times` over the relay names: a relay whose
legs all parse and whose total is positive is recorded under its base name
and team letter. -/
def calcRelayTimesGo (entries : List RelayEntry) :
    List String → List (String × List (Char × ℚ)) → List (String × List (Char × ℚ))
  | [], acc => acc
  | nm :: rest, acc =>
    match legsTotal (entries.filter (fun e => e.relay = nm)) with
    | some tot =>
      if 0 < tot then
        calcRelayTimesGo entries rest
          (updNested (relayBaseName nm) (relayTeamLetter nm) tot acc)
      else calcRelayTimesGo entries rest acc
    | none => calcRelayTimesGo entries rest acc

/-- Model of `scoring.calculate_relay_times`: the nested dictionary
`{base relay name: {team letter: total seconds}}`. -/
def calculate_relay_times (entries : List RelayEntry) :
    List (String × List (Char × ℚ)) :=
  calcRelayTimesGo entries (relayNamesOf entries) []

/-! ## `scoring.calculate_relay_points_vs_opponent` -/

/-- Model of `scoring.calculate_relay_points_vs_opponent` on the inner
letter-to-seconds dictionaries of the two teams for one relay type: the
own best (minimum) squad total is compared against every opponent squad
total, through the 11/4/2/0 cascade over `beaten`. -/
def calculate_relay_points_vs_opponent (ourT oppT : List (Char × ℚ)) : ℕ :=
  if oppT = [] then (if ourT = [] then 0 else 11)
  else
    match ourT.map Prod.snd with
    | [] => 0
    | v :: vs =>
      let ourBest := vs.foldl qMin v
      let oppVals := oppT.map Prod.snd
      let beaten := oppVals.countP (fun t => decide (ourBest < t))
      let n := oppVals.length
      if beaten = n then 11
      else if n - 1 ≤ beaten then 4
      else if n - 2 ≤ beaten then 2
      else 0

/-- The representative time of a team for one relay type: the minimum over
its squad totals (`min(relay_times.values())`), `none` when it fielded no
squad. -/
def repTime (d : List (Char × ℚ)) : Option ℚ :=
  match d.map Prod.snd with
  | [] => none
  | v :: vs => some (vs.foldl qMin v)

/-! ## The specification's pooled round-robin assignor (for comparison) -/

/-- An entry of the specification's global pool. -/
structure PoolEntry where
  swimmer : String
  event : String
  timeStr : String
  secs : ℚ
deriving DecidableEq, Repr

/-- Modelled from the spec (§4.3 step 1): the global pool of
(athlete, event, time) entries with valid times, sorted ascending by time
across all events combined. -/
def specPool (t : List LongRow) : List PoolEntry :=
  sortOn PoolEntry.secs (t.filterMap (fun r =>
    match time_to_seconds r.time with
    | none => none
    | some q => some ⟨r.swimmer, r.event, r.time, q⟩))

/-- State of the specification's fixed-point loop. -/
structure SpecState where
  pool : List PoolEntry
  out : List Assign
  counts : Counts

/-- Remove the first element satisfying the test, returning it and the
remaining list. -/
def extractFirst {α : Type} (pred : α → Bool) : List α → Option (α × List α)
  | [] => none
  | x :: xs =>
    if pred x then some (x, xs)
    else (extractFirst pred xs).map (fun r => (r.1, x :: r.2))

/-- Modelled from the spec (§4.3 step 2): one full scan of the events in
the fixed round-robin order; each event below its slot cap receives the
fastest pool entry for it whose athlete is below the ledger cap and not
already assigned to that event; the entry leaves the pool and the ledger
is incremented.  Returns the new state and whether any assignment was
made. -/
def specScanEvents (m p : ℕ) : List String → SpecState → SpecState × Bool
  | [], st => (st, false)
  | ev :: evs, st =>
    let here := st.out.filter (fun a => a.event = ev)
    if here.length < p then
      match extractFirst (fun pe =>
        pe.event = ev && decide (st.counts pe.swimmer < m) &&
          !((here.map Assign.swimmer).contains pe.swimmer)) st.pool with
      | some (pe, pool') =>
        let st' : SpecState :=
          ⟨pool',
           st.out ++ [⟨ev, pe.swimmer, pe.timeStr, here.length + 1, none⟩],
           bumpCount st.counts pe.swimmer⟩
        ((specScanEvents m p evs st').1, true)
      | none => specScanEvents m p evs st
    else specScanEvents m p evs st

/-- Modelled from the spec (§4.3 step 3): repeat full scans until one makes
no new assignment, bounded by a hard iteration ceiling. -/
def specFixLoop (m p : ℕ) (events : List String) : ℕ → SpecState → SpecState
  | 0, st => st
  | fuel + 1, st =>
    let res := specScanEvents m p events st
    if res.2 then specFixLoop m p events fuel res.1 else res.1

/-- Modelled from the spec (§4.3): the plain Individual Event Assignor as
the specification describes it — global sorted pool, round-robin scans to
a fixed point, iteration ceiling 100. -/
def specPlainAssignor (t : List LongRow) (m p : ℕ) (k : Counts) :
    List Assign × Counts :=
  let st := specFixLoop m p (dedupFirst (t.map LongRow.event)) 100
    ⟨specPool t, [], k⟩
  (st.out, st.counts)

/-! ## Clean single-pass formulation of `round_robin_assignment` -/

/-- The per-event greedy selection that `round_robin_assignment` actually
performs, written without the redundant in-loop break: scan the sorted
candidates once, assigning every swimmer below the ledger cap while fewer
than `p` slots are taken. -/
def greedyEvent (ev : String) (m p : ℕ) : List Cand → ℕ → Counts → List Assign × Counts
  | [], _, k => ([], k)
  | c :: cs, a, k =>
    if p ≤ a then ([], k)
    else if k c.swimmer < m then
      let next := greedyEvent ev m p cs (a + 1) (bumpCount k c.swimmer)
      (⟨ev, c.swimmer, c.timeStr, a + 1, none⟩ :: next.1, next.2)
    else greedyEvent ev m p cs a k

/-- Single-pass assignor: each event of the frame, in first-appearance
order, exactly once, filled by `greedyEvent`. -/
def singlePassGo (t : List LongRow) (m p : ℕ) : List String → Counts →
    List Assign × Counts
  | [], k => ([], k)
  | ev :: evs, k =>
    let res := greedyEvent ev m p (eventCands t ev) 0 k
    let next := singlePassGo t m p evs res.2
    (res.1 ++ next.1, next.2)

/-- The amended description of the plain assignor: a single pass over the
events in first-appearance order, each filled greedily fastest-first under
the ledger cap. -/
def singlePassAssignor (t : List LongRow) (m p : ℕ) (k : Counts) :
    List Assign × Counts :=
  if t = [] then ([], zeroCounts)
  else singlePassGo t m p (dedupFirst (t.map LongRow.event)) k

/-! ## Concrete instances used by the claim theorems -/

/-- The event columns of the cap-violation roster. -/
def c1Cols : List String :=
  ["50 back", "50 breast", "50 fly", "50 free",
   "100 back", "100 breast", "100 fly", "100 free"]

/-- A wide row with the same time in every column. -/
def c1Row (nm t : String) : WideRow :=
  ⟨nm, c1Cols.map (fun c => (c, t))⟩

/-- Four swimmers, `S` fastest everywhere: `S` ends up on the A squad of
all four relay types. -/
def c1Table : List WideRow :=
  [c1Row "S" "30.00", c1Row "T" "31.00", c1Row "U" "32.00", c1Row "V" "33.00"]

/-- All four relay types requested. -/
def c1Events : List String :=
  ["200 Medley Relay", "400 Medley Relay", "200 Free Relay", "400 Free Relay"]

/-- An individual-events frame for the same roster. -/
def c1Long : List LongRow :=
  [⟨"S", "50 free", "30.00"⟩, ⟨"T", "50 free", "31.00"⟩,
   ⟨"U", "50 free", "32.00"⟩, ⟨"V", "50 free", "33.00"⟩]

/-- Long frame on which the single-pass behavior differs from the pooled
round-robin of the specification (cap 1, two slots per event). -/
def c2Rows : List LongRow :=
  [⟨"A", "E1", "50.00"⟩, ⟨"A", "E2", "1:40.00"⟩,
   ⟨"B", "E1", "51.00"⟩, ⟨"B", "E2", "40.00"⟩]

/-- A single complete relay squad, total 106 seconds. -/
def c3Entries : List RelayEntry :=
  [⟨"200 Free Relay A", "Leg 1", "a", "25.00"⟩,
   ⟨"200 Free Relay A", "Leg 2", "b", "26.00"⟩,
   ⟨"200 Free Relay A", "Leg 3", "c", "27.00"⟩,
   ⟨"200 Free Relay A", "Leg 4", "d", "28.00"⟩]

/-- Long frame with duplicate athlete-event rows. -/
def c6Rows : List LongRow :=
  [⟨"S", "E", "50.00"⟩, ⟨"S", "E", "51.00"⟩]

/-- An opponent frame sharing event `E`. -/
def c6Opp : List LongRow :=
  [⟨"T", "E", "55.00"⟩]

/-- Lookup in the nested relay-time dictionary. -/
def lookupNested (d : List (String × List (Char × ℚ))) (b : String) (c : Char) :
    Option ℚ :=
  match d.lookup b with
  | none => none
  | some inner => inner.lookup c

/-- Own frame for the order-dependence run: one swimmer with times in two
common events. -/
def c8U : List LongRow :=
  [⟨"A", "E1", "50.00"⟩, ⟨"A", "E2", "40.00"⟩]

/-- Opponent frame covering both events. -/
def c8O : List LongRow :=
  [⟨"X", "E1", "55.00"⟩, ⟨"Y", "E2", "56.00"⟩]

/-- Property of one emitted squad block of the relay builder: either empty
(the squad was discarded) or a complete squad — four legs, four distinct
swimmers, every row carrying the block's relay name. -/
def BlockOk (p : String × List RelayEntry) : Prop :=
  p.2 = [] ∨ (p.2.length = 4 ∧ (p.2.map RelayEntry.swimmer).Nodup ∧
    ∀ e ∈ p.2, e.relay = p.1)

/-! ## Lemmas: the single pass of `round_robin_assignment` -/

theorem greedyEvent_stop (ev : String) (m p : ℕ) (cands : List Cand) (a : ℕ)
    (k : Counts) (h : p ≤ a) : greedyEvent ev m p cands a k = ([], k) := by
  cases cands with
  | nil => rfl
  | cons c cs => simp [greedyEvent, h]

theorem assignLoop_eq_greedyEvent (ev : String) (m p : ℕ) :
    ∀ (cands : List Cand) (a : ℕ) (k : Counts),
      assignLoop ev m p cands a k = greedyEvent ev m p cands a k := by
  intro cands
  induction cands with
  | nil => intro a k; rfl
  | cons c cs ih =>
    intro a k
    by_cases hap : a < p
    · by_cases hkm : k c.swimmer < m
      · by_cases hbr : p ≤ a + 1
        · have hstop := greedyEvent_stop ev m p cs (a + 1)
            (bumpCount k c.swimmer) hbr
          simp [assignLoop, greedyEvent, hap, hkm, hbr, not_le.2 hap, hstop]
        · simp [assignLoop, greedyEvent, hap, hkm, hbr, not_le.2 hap, ih]
      · simp [assignLoop, greedyEvent, hap, hkm, not_le.2 hap, ih]
    · have hpa : p ≤ a := not_lt.1 hap
      have hstop := greedyEvent_stop ev m p cs a k hpa
      simp [assignLoop, greedyEvent, hap, hpa, ih, hstop]

theorem roundRobinGo_eq_singlePassGo (t : List LongRow) (m p : ℕ) :
    ∀ (evs : List String) (k : Counts),
      roundRobinGo t m p evs k = singlePassGo t m p evs k := by
  intro evs
  induction evs with
  | nil => intro k; rfl
  | cons ev rest ih =>
    intro k
    simp only [roundRobinGo, singlePassGo, assignLoop_eq_greedyEvent, ih]

/-! ## Lemmas: counting, minima, and the nested relay-time dictionary -/

theorem qMin_le_left (a b : ℚ) : qMin a b ≤ a := by
  unfold qMin
  by_cases h : b < a
  · simp [h, le_of_lt h]
  · simp [h]

theorem qMin_le_right (a b : ℚ) : qMin a b ≤ b := by
  unfold qMin
  by_cases h : b < a
  · simp [h]
  · simp [h, not_lt.1 h]

theorem foldl_qMin_le_init : ∀ (vs : List ℚ) (v : ℚ), vs.foldl qMin v ≤ v := by
  intro vs
  induction vs with
  | nil => intro v; exact le_refl v
  | cons x xs ih =>
    intro v
    exact le_trans (ih (qMin v x)) (qMin_le_left v x)

theorem foldl_qMin_le_mem : ∀ (vs : List ℚ) (v t : ℚ), t ∈ vs →
    vs.foldl qMin v ≤ t := by
  intro vs
  induction vs with
  | nil => intro v t ht; cases ht
  | cons x xs ih =>
    intro v t ht
    rcases List.mem_cons.1 ht with h | h
    · subst h
      exact le_trans (foldl_qMin_le_init xs (qMin v t)) (qMin_le_right v t)
    · exact ih (qMin v x) t h

theorem lookup_updInner_self (letter : Char) (v : ℚ) :
    ∀ inner : List (Char × ℚ), (updInner letter v inner).lookup letter = some v := by
  intro inner
  induction inner with
  | nil => simp [updInner, List.lookup]
  | cons p rest ih =>
    obtain ⟨c, w⟩ := p
    by_cases h : c = letter
    · subst h; simp [updInner, List.lookup]
    · have hb : (letter == c) = false := beq_false_of_ne (Ne.symm h)
      simp [updInner, if_neg h, List.lookup, hb, ih]

theorem lookup_updInner_other (letter : Char) (v : ℚ) (c : Char) (h : c ≠ letter) :
    ∀ inner : List (Char × ℚ), (updInner letter v inner).lookup c = inner.lookup c := by
  intro inner
  induction inner with
  | nil =>
    have hb : (c == letter) = false := beq_false_of_ne h
    simp [updInner, List.lookup, hb]
  | cons p rest ih =>
    obtain ⟨c0, w⟩ := p
    by_cases h0 : c0 = letter
    · subst h0
      have hb : (c == c0) = false := beq_false_of_ne h
      simp [updInner, List.lookup, hb]
    · simp only [updInner, if_neg h0, List.lookup]
      by_cases hc : c = c0
      · subst hc; simp
      · have hb : (c == c0) = false := beq_false_of_ne hc
        simp [hb, ih]

theorem lookupNested_updNested_self (base : String) (letter : Char) (v : ℚ) :
    ∀ d, lookupNested (updNested base letter v d) base letter = some v := by
  intro d
  induction d with
  | nil => simp [updNested, lookupNested, List.lookup, lookup_updInner_self]
  | cons p rest ih =>
    obtain ⟨b, inner⟩ := p
    by_cases h : b = base
    · subst h
      simp [updNested, lookupNested, List.lookup, lookup_updInner_self]
    · have hb : (base == b) = false := beq_false_of_ne (Ne.symm h)
      simp only [updNested, if_neg h, lookupNested, List.lookup, hb]
      exact ih

theorem lookupNested_updNested_other (base : String) (letter : Char) (v : ℚ)
    (b : String) (c : Char) (h : ¬ (base = b ∧ letter = c)) :
    ∀ d, lookupNested (updNested base letter v d) b c = lookupNested d b c := by
  intro d
  induction d with
  | nil =>
    by_cases hb : base = b
    · subst hb
      have hc : c ≠ letter := fun he => h ⟨rfl, he.symm⟩
      have hbc : (c == letter) = false := beq_false_of_ne hc
      simp [updNested, lookupNested, List.lookup, hbc]
    · have hbb : (b == base) = false := beq_false_of_ne (Ne.symm hb)
      simp [updNested, lookupNested, List.lookup, hbb]
  | cons p rest ih =>
    obtain ⟨b0, inner⟩ := p
    by_cases h0 : b0 = base
    · subst h0
      by_cases hb : b0 = b
      · subst hb
        have hc : c ≠ letter := fun he => h ⟨rfl, he.symm⟩
        simp [updNested, lookupNested, List.lookup,
          lookup_updInner_other letter v c hc]
      · have hbb : (b == b0) = false := beq_false_of_ne (Ne.symm hb)
        simp [updNested, lookupNested, List.lookup, hbb]
    · simp only [updNested, if_neg h0, lookupNested, List.lookup]
      by_cases hb : b = b0
      · subst hb; simp
      · have hbb : (b == b0) = false := beq_false_of_ne hb
        simp only [hbb, Bool.false_eq_true, ↓reduceIte]
        exact ih

theorem calcRelayTimesGo_preserve (entries : List RelayEntry) :
    ∀ (names : List String) (acc : List (String × List (Char × ℚ)))
      (b : String) (c : Char),
      (∀ nm ∈ names, ¬ (relayBaseName nm = b ∧ relayTeamLetter nm = c)) →
      lookupNested (calcRelayTimesGo entries names acc) b c = lookupNested acc b c := by
  intro names
  induction names with
  | nil => intro acc b c _; rfl
  | cons nm rest ih =>
    intro acc b c hnone
    have hnm := hnone nm (List.mem_cons_self nm rest)
    have hrest : ∀ nm' ∈ rest, ¬ (relayBaseName nm' = b ∧ relayTeamLetter nm' = c) :=
      fun nm' hm => hnone nm' (List.mem_cons_of_mem nm hm)
    rcases hlt : legsTotal (entries.filter (fun e => e.relay = nm)) with _ | tot
    · simp only [calcRelayTimesGo, hlt]
      exact ih acc b c hrest
    · by_cases hpos : 0 < tot
      · simp only [calcRelayTimesGo, hlt, if_pos hpos]
        rw [ih _ b c hrest]
        exact lookupNested_updNested_other _ _ _ _ _ hnm acc
      · simp only [calcRelayTimesGo, hlt, if_neg hpos]
        exact ih acc b c hrest

theorem calcRelayTimesGo_found (entries : List RelayEntry) (nm : String) (tot : ℚ)
    (htot : legsTotal (entries.filter (fun e => e.relay = nm)) = some tot)
    (hpos : 0 < tot) :
    ∀ (names : List String) (acc : List (String × List (Char × ℚ))),
      nm ∈ names → names.Nodup →
      (∀ nm' ∈ names, relayBaseName nm' = relayBaseName nm →
        relayTeamLetter nm' = relayTeamLetter nm → nm' = nm) →
      lookupNested (calcRelayTimesGo entries names acc)
        (relayBaseName nm) (relayTeamLetter nm) = some tot := by
  intro names
  induction names with
  | nil => intro acc hm; cases hm
  | cons nm0 rest ih =>
    intro acc hm hnd huniq
    by_cases h0 : nm0 = nm
    · subst h0
      have hnotin : nm0 ∉ rest := (List.nodup_cons.1 hnd).1
      simp only [calcRelayTimesGo, htot, if_pos hpos]
      rw [calcRelayTimesGo_preserve entries rest _ _ _ ?_]
      · exact lookupNested_updNested_self _ _ _ acc
      · intro nm' hm' hbad
        have : nm' = nm0 :=
          huniq nm' (List.mem_cons_of_mem nm0 hm') hbad.1 hbad.2
        exact hnotin (this ▸ hm')
    · have hmrest : nm ∈ rest := by
        rcases List.mem_cons.1 hm with h | h
        · exact absurd h.symm h0
        · exact h
      have hndr : rest.Nodup := (List.nodup_cons.1 hnd).2
      have huniqr : ∀ nm' ∈ rest, relayBaseName nm' = relayBaseName nm →
          relayTeamLetter nm' = relayTeamLetter nm → nm' = nm :=
        fun nm' hm' hb hl => huniq nm' (List.mem_cons_of_mem nm0 hm') hb hl
      rcases hlt : legsTotal (entries.filter (fun e => e.relay = nm0)) with _ | tot0
      · simp only [calcRelayTimesGo, hlt]
        exact ih _ hmrest hndr huniqr
      · by_cases hpos0 : 0 < tot0
        · simp only [calcRelayTimesGo, hlt, if_pos hpos0]
          exact ih _ hmrest hndr huniqr
        · simp only [calcRelayTimesGo, hlt, if_neg hpos0]
          exact ih _ hmrest hndr huniqr

theorem dedupFirstAux_nodup_not_seen :
    ∀ (l seen : List String), (dedupFirstAux l seen).Nodup ∧
      ∀ x ∈ dedupFirstAux l seen, x ∉ seen := by
  intro l
  induction l with
  | nil => intro seen; exact ⟨List.nodup_nil, fun x hx => absurd hx (List.not_mem_nil x)⟩
  | cons y ys ih =>
    intro seen
    by_cases hy : y ∈ seen
    · simpa [dedupFirstAux, hy] using ih seen
    · have h2 := ih (y :: seen)
      refine ⟨?_, ?_⟩
      · simp only [dedupFirstAux, if_neg hy]
        refine List.nodup_cons.2 ⟨?_, h2.1⟩
        intro hmem
        exact (h2.2 y hmem) (List.mem_cons_self y seen)
      · intro x hx
        simp only [dedupFirstAux, if_neg hy] at hx
        rcases List.mem_cons.1 hx with h | h
        · exact h ▸ hy
        · intro hxs
          exact (h2.2 x h) (List.mem_cons_of_mem y hxs)

theorem dedupFirst_nodup (l : List String) : (dedupFirst l).Nodup :=
  (dedupFirstAux_nodup_not_seen l []).1

theorem repTime_le (d : List (Char × ℚ)) (rep : ℚ) (h : repTime d = some rep) :
    ∀ t ∈ d.map Prod.snd, rep ≤ t := by
  unfold repTime at h
  rcases hd : d.map Prod.snd with _ | ⟨v, vs⟩
  · rw [hd] at h; exact Option.noConfusion h
  · rw [hd] at h
    have hrep : rep = vs.foldl qMin v := (Option.some.inj h).symm
    intro t ht
    rcases List.mem_cons.1 ht with h' | h'
    · subst h'; rw [hrep]; exact foldl_qMin_le_init vs t
    · rw [hrep]; exact foldl_qMin_le_mem vs v t h'

/-! ## Lemmas: relay squads are complete and duplicate-free -/

theorem pickFreeAux_spec : ∀ (k : ℕ) (cands : List Cand) (used : List String),
    ((pickFreeAux k cands used).1.map Cand.swimmer).Nodup ∧
    ∀ s ∈ (pickFreeAux k cands used).1.map Cand.swimmer, s ∉ used := by
  intro k cands
  induction cands generalizing k with
  | nil => intro used; simp [pickFreeAux]
  | cons c cs ih =>
    intro used
    by_cases hk : k = 0
    · simp [pickFreeAux, hk]
    · by_cases hu : c.swimmer ∈ used
      · simpa [pickFreeAux, hk, hu] using ih k used
      · have h2 := ih (k - 1) (c.swimmer :: used)
        refine ⟨?_, ?_⟩
        · simp only [pickFreeAux, if_neg hk, if_neg hu, List.map_cons]
          refine List.nodup_cons.2 ⟨?_, h2.1⟩
          intro hmem
          exact (h2.2 c.swimmer hmem) (List.mem_cons_self _ _)
        · intro s hs
          simp only [pickFreeAux, if_neg hk, if_neg hu, List.map_cons] at hs
          rcases List.mem_cons.1 hs with h | h
          · exact h ▸ hu
          · intro hsu
            exact (h2.2 s h) (List.mem_cons_of_mem _ hsu)

theorem firstAvail_not_used : ∀ (cands : List Cand) (used : List String) (c : Cand),
    firstAvail cands used = some c → c.swimmer ∉ used := by
  intro cands
  induction cands with
  | nil => intro used c h; cases h
  | cons c0 cs ih =>
    intro used c h
    by_cases hu : c0.swimmer ∈ used
    · rw [firstAvail, if_pos hu] at h
      exact ih used c h
    · rw [firstAvail, if_neg hu] at h
      cases Option.some.inj h
      exact hu

theorem medleyLegs_spec : ∀ (pools : List (String × List Cand)) (used : List String),
    ((medleyLegs pools used).1.map (fun p => p.2.swimmer)).Nodup ∧
    ∀ s ∈ (medleyLegs pools used).1.map (fun p => p.2.swimmer), s ∉ used := by
  intro pools
  induction pools with
  | nil => intro used; simp [medleyLegs]
  | cons pr rest ih =>
    intro used
    obtain ⟨nm, cands⟩ := pr
    rcases hfa : firstAvail cands used with _ | c
    · simp [medleyLegs, hfa]
    · have hnu : c.swimmer ∉ used := firstAvail_not_used cands used c hfa
      have h2 := ih (c.swimmer :: used)
      refine ⟨?_, ?_⟩
      · simp only [medleyLegs, hfa, List.map_cons]
        refine List.nodup_cons.2 ⟨?_, h2.1⟩
        intro hmem
        exact (h2.2 c.swimmer hmem) (List.mem_cons_self _ _)
      · intro s hs
        simp only [medleyLegs, hfa, List.map_cons] at hs
        rcases List.mem_cons.1 hs with h | h
        · exact h ▸ hnu
        · intro hsu
          exact (h2.2 s h) (List.mem_cons_of_mem _ hsu)

theorem append_right_inj_str (a b s : String) (h : a ++ s = b ++ s) : a = b := by
  apply String.ext
  have hd : a.data ++ s.data = b.data ++ s.data := by
    rw [← String.data_append, ← String.data_append, h]
  exact List.append_cancel_right hd

theorem append_A_ne_append_B (a b : String) : a ++ " A" ≠ b ++ " B" := by
  intro h
  have hd : a.data ++ [' ', 'A'] = b.data ++ [' ', 'B'] := by
    have := congrArg String.data h
    rwa [String.data_append, String.data_append] at this
  have h1 : (a.data ++ [' ']) ++ ['A'] = (b.data ++ [' ']) ++ ['B'] := by
    simpa [List.append_assoc] using hd
  have h2 : some 'A' = some 'B' := by
    rw [← List.getLast?_concat (a.data ++ [' ']), h1, List.getLast?_concat]
  cases h2

theorem squadName_zero (ev : String) : squadName ev 0 = ev ++ " A" := rfl

theorem squadName_one (ev : String) : squadName ev 1 = ev ++ " B" := rfl

theorem squadName_ne_of_ne (ev1 ev2 : String) (i j : ℕ) (hi : i ≤ 1) (hj : j ≤ 1)
    (hne : ev1 ≠ ev2) : squadName ev1 i ≠ squadName ev2 j := by
  interval_cases i <;> interval_cases j <;>
    simp only [squadName_zero, squadName_one] <;> intro h
  · exact hne (append_right_inj_str ev1 ev2 " A" h)
  · exact append_A_ne_append_B ev1 ev2 h
  · exact append_A_ne_append_B ev2 ev1 h.symm
  · exact hne (append_right_inj_str ev1 ev2 " B" h)

theorem squadName_zero_ne_one (ev1 ev2 : String) : squadName ev1 0 ≠ squadName ev2 1 :=
  append_A_ne_append_B ev1 ev2

theorem freeEntries_map_swimmer (nm : String) :
    ∀ (i : ℕ) (l : List Cand),
      (freeEntries nm i l).map RelayEntry.swimmer = l.map Cand.swimmer := by
  intro i l
  induction l generalizing i with
  | nil => rfl
  | cons c cs ih => simp [freeEntries, ih]

theorem freeEntries_length (nm : String) :
    ∀ (i : ℕ) (l : List Cand), (freeEntries nm i l).length = l.length := by
  intro i l
  induction l generalizing i with
  | nil => rfl
  | cons c cs ih => simp [freeEntries, ih]

theorem freeEntries_relay (nm : String) :
    ∀ (i : ℕ) (l : List Cand) (e : RelayEntry), e ∈ freeEntries nm i l →
      e.relay = nm := by
  intro i l
  induction l generalizing i with
  | nil => intro e he; cases he
  | cons c cs ih =>
    intro e he
    rcases List.mem_cons.1 he with h | h
    · subst h; rfl
    · exact ih (i + 1) e h

theorem freeRelayLoop_blocks (ev : String) (allFree : List Cand) :
    ∀ (idxs : List ℕ) (used : List String) (k : Counts),
      ∃ blocks : List (String × List RelayEntry),
        (freeRelayLoop ev allFree idxs used k).1 = (blocks.map Prod.snd).flatten ∧
        blocks.map Prod.fst = idxs.map (squadName ev) ∧
        ∀ p ∈ blocks, BlockOk p := by
  intro idxs
  induction idxs with
  | nil => intro used k; exact ⟨[], by simp [freeRelayLoop], by simp, by simp⟩
  | cons i rest ih =>
    intro used k
    by_cases hlen : (pickFreeAux 4 allFree used).1.length = 4
    · obtain ⟨blocks, hout, hnames, hok⟩ :=
        ih (pickFreeAux 4 allFree used).2
          ((pickFreeAux 4 allFree used).1.foldl (fun kk c => bumpCount kk c.swimmer) k)
      refine ⟨(squadName ev i,
        freeEntries (squadName ev i) 0 (pickFreeAux 4 allFree used).1) :: blocks,
        ?_, ?_, ?_⟩
      · simp only [freeRelayLoop, if_pos hlen, List.map_cons, List.flatten_cons]
        rw [hout]
      · simp [hnames]
      · intro p hp
        rcases List.mem_cons.1 hp with h | h
        · subst h
          refine Or.inr ⟨?_, ?_, ?_⟩
          · rw [freeEntries_length]; exact hlen
          · rw [freeEntries_map_swimmer]
            exact (pickFreeAux_spec 4 allFree used).1
          · exact freeEntries_relay (squadName ev i) 0 _
        · exact hok p h
    · obtain ⟨blocks, hout, hnames, hok⟩ :=
        ih (pickFreeAux 4 allFree used).2 k
      refine ⟨(squadName ev i, []) :: blocks, ?_, ?_, ?_⟩
      · simp only [freeRelayLoop, if_neg hlen, List.map_cons, List.flatten_cons, List.nil_append]
        exact hout
      · simp [hnames]
      · intro p hp
        rcases List.mem_cons.1 hp with h | h
        · subst h; exact Or.inl rfl
        · exact hok p h

theorem medleyRelayLoop_blocks (ev : String) (pools : List (String × List Cand)) :
    ∀ (idxs : List ℕ) (used : List String) (k : Counts),
      ∃ blocks : List (String × List RelayEntry),
        (medleyRelayLoop ev pools idxs used k).1 = (blocks.map Prod.snd).flatten ∧
        blocks.map Prod.fst = idxs.map (squadName ev) ∧
        ∀ p ∈ blocks, BlockOk p := by
  intro idxs
  induction idxs with
  | nil => intro used k; exact ⟨[], by simp [medleyRelayLoop], by simp, by simp⟩
  | cons i rest ih =>
    intro used k
    by_cases hlen : (medleyLegs pools used).1.length = 4
    · obtain ⟨blocks, hout, hnames, hok⟩ :=
        ih (medleyLegs pools used).2
          ((medleyLegs pools used).1.foldl (fun kk p => bumpCount kk p.2.swimmer) k)
      refine ⟨(squadName ev i,
        (medleyLegs pools used).1.map (fun p =>
          (⟨squadName ev i, p.1, p.2.swimmer, p.2.timeStr⟩ : RelayEntry))) :: blocks,
        ?_, ?_, ?_⟩
      · simp only [medleyRelayLoop, if_pos hlen, List.map_cons, List.flatten_cons]
        rw [hout]
      · simp [hnames]
      · intro p hp
        rcases List.mem_cons.1 hp with h | h
        · subst h
          refine Or.inr ⟨by simp [hlen], ?_, ?_⟩
          · have hmap : (((medleyLegs pools used).1.map (fun p =>
                (⟨squadName ev i, p.1, p.2.swimmer, p.2.timeStr⟩ : RelayEntry))).map
                  RelayEntry.swimmer) =
                (medleyLegs pools used).1.map (fun p => p.2.swimmer) := by
              rw [List.map_map]; rfl
            rw [hmap]
            exact (medleyLegs_spec pools used).1
          · intro e he
            obtain ⟨q, _, hq⟩ := List.mem_map.1 he
            exact hq ▸ rfl
        · exact hok p h
    · obtain ⟨blocks, hout, hnames, hok⟩ := ih (medleyLegs pools used).2 k
      refine ⟨(squadName ev i, []) :: blocks, ?_, ?_, ?_⟩
      · simp only [medleyRelayLoop, if_neg hlen, List.map_cons, List.flatten_cons,
          List.nil_append]
        exact hout
      · simp [hnames]
      · intro p hp
        rcases List.mem_cons.1 hp with h | h
        · subst h; exact Or.inl rfl
        · exact hok p h

theorem range_min_two (x : ℕ) :
    List.range (min 2 x) = [] ∨ List.range (min 2 x) = [0] ∨
      List.range (min 2 x) = [0, 1] := by
  have h : min 2 x = 0 ∨ min 2 x = 1 ∨ min 2 x = 2 := by omega
  rcases h with h | h | h <;> rw [h] <;> simp [List.range_succ]

theorem processRelayEvent_blocks (t : List WideRow) (ev : String) (k : Counts) :
    ∃ blocks : List (String × List RelayEntry),
      relayEntriesOf (processRelayEvent t ev k) = (blocks.map Prod.snd).flatten ∧
      (blocks.map Prod.fst).Nodup ∧
      (∀ nm ∈ blocks.map Prod.fst, nm = squadName ev 0 ∨ nm = squadName ev 1) ∧
      ∀ p ∈ blocks, BlockOk p := by
  have hAB : squadName ev 0 ≠ squadName ev 1 := squadName_zero_ne_one ev ev
  have hshape : ∀ (idxs : List ℕ),
      (idxs = [] ∨ idxs = [0] ∨ idxs = [0, 1]) →
      ∀ blocks : List (String × List RelayEntry),
        blocks.map Prod.fst = idxs.map (squadName ev) →
        (blocks.map Prod.fst).Nodup ∧
        (∀ nm ∈ blocks.map Prod.fst, nm = squadName ev 0 ∨ nm = squadName ev 1) := by
    intro idxs hcases blocks hnames
    rcases hcases with h | h | h <;> subst h <;> rw [hnames]
    · exact ⟨List.nodup_nil, by simp⟩
    · refine ⟨List.nodup_singleton _, ?_⟩
      intro nm hnm
      simp only [List.map_cons, List.map_nil, List.mem_singleton] at hnm
      exact Or.inl hnm
    · refine ⟨?_, ?_⟩
      · simp only [List.map_cons, List.map_nil]
        exact List.nodup_cons.2 ⟨by simpa using hAB, List.nodup_singleton _⟩
      · intro nm hnm
        simp only [List.map_cons, List.map_nil, List.mem_cons,
          List.mem_singleton] at hnm
        rcases hnm with h | h | h
        · exact Or.inl h
        · exact Or.inr h
        · cases h
  have hfreeB : ∀ (pools : List (String × List Cand)),
      ∃ blocks : List (String × List RelayEntry),
        (freeBranch ev pools k).1 = (blocks.map Prod.snd).flatten ∧
        blocks.map Prod.fst =
          (List.range (min 2 ((pools.headI).2.length / 4))).map (squadName ev) ∧
        ∀ p ∈ blocks, BlockOk p := by
    intro pools
    obtain ⟨blocks, hout, hnames, hok⟩ :=
      freeRelayLoop_blocks ev (pools.headI).2
        (List.range (min 2 ((pools.headI).2.length / 4))) [] k
    exact ⟨blocks, hout, hnames, hok⟩
  have hmedB : ∀ (pools : List (String × List Cand)) (minS : ℕ),
      ∃ blocks : List (String × List RelayEntry),
        (medleyBranch ev pools minS k).1 = (blocks.map Prod.snd).flatten ∧
        blocks.map Prod.fst = (List.range (min 2 minS)).map (squadName ev) ∧
        ∀ p ∈ blocks, BlockOk p := by
    intro pools minS
    obtain ⟨blocks, hout, hnames, hok⟩ :=
      medleyRelayLoop_blocks ev pools (List.range (min 2 minS)) [] k
    exact ⟨blocks, hout, hnames, hok⟩
  unfold processRelayEvent
  rcases relayStrokes ev with _ | pairs
  · exact ⟨[], rfl, List.nodup_nil, by simp, by simp⟩
  · rcases hl : poolLens (relayPools t pairs) with _ | ⟨n, ns⟩
    · simp only [hl]
      exact ⟨[], rfl, List.nodup_nil, by simp, by simp⟩
    · simp only [hl]
      by_cases hmin : ns.foldl Nat.min n < 1
      · rw [if_pos hmin]
        exact ⟨[], rfl, List.nodup_nil, by simp, by simp⟩
      · rw [if_neg hmin]
        by_cases hfree : isFreeRelay ev = true
        · rw [if_pos hfree]
          obtain ⟨blocks, hout, hnames, hok⟩ := hfreeB (relayPools t pairs)
          have hsh := hshape _ (range_min_two _) blocks hnames
          exact ⟨blocks, hout, hsh.1, hsh.2, hok⟩
        · rw [if_neg hfree]
          obtain ⟨blocks, hout, hnames, hok⟩ :=
            hmedB (relayPools t pairs) (ns.foldl Nat.min n)
          have hsh := hshape _ (range_min_two _) blocks hnames
          exact ⟨blocks, hout, hsh.1, hsh.2, hok⟩

theorem createRelayGo_blocks (t : List WideRow) :
    ∀ (evs : List String) (k : Counts), evs.Nodup →
      ∃ blocks : List (String × List RelayEntry),
        relayEntriesOf (createRelayGo t evs k) = (blocks.map Prod.snd).flatten ∧
        (blocks.map Prod.fst).Nodup ∧
        (∀ nm ∈ blocks.map Prod.fst, ∃ ev ∈ evs,
          nm = squadName ev 0 ∨ nm = squadName ev 1) ∧
        ∀ p ∈ blocks, BlockOk p := by
  intro evs
  induction evs with
  | nil =>
    intro k _
    exact ⟨[], rfl, List.nodup_nil, by simp, by simp⟩
  | cons ev rest ih =>
    intro k hnd
    have hevrest : ev ∉ rest := (List.nodup_cons.1 hnd).1
    rcases h1 : processRelayEvent t ev k with e | ⟨es1, k1⟩
    · refine ⟨[], ?_, List.nodup_nil, by simp, by simp⟩
      simp [createRelayGo, h1, relayEntriesOf]
    · rcases h2 : createRelayGo t rest k1 with e | ⟨more, k2⟩
      · refine ⟨[], ?_, List.nodup_nil, by simp, by simp⟩
        simp [createRelayGo, h1, h2, relayEntriesOf]
      · obtain ⟨blocks1, hout1, hnd1, hmem1, hok1⟩ := processRelayEvent_blocks t ev k
        rw [h1] at hout1
        obtain ⟨blocks2, hout2, hnd2, hmem2, hok2⟩ := ih k1 (List.nodup_cons.1 hnd).2
        rw [h2] at hout2
        refine ⟨blocks1 ++ blocks2, ?_, ?_, ?_, ?_⟩
        · have : relayEntriesOf (createRelayGo t (ev :: rest) k) = es1 ++ more := by
            simp [createRelayGo, h1, h2, relayEntriesOf]
          rw [this, List.map_append, List.flatten_append]
          simp only [relayEntriesOf] at hout1 hout2
          rw [hout1, hout2]
        · rw [List.map_append]
          refine List.Nodup.append hnd1 hnd2 ?_
          intro nm hm1 hm2
          obtain ⟨ev', hev', hnm'⟩ := hmem2 nm hm2
          have hne : ev ≠ ev' := fun he => hevrest (he ▸ hev')
          rcases hmem1 nm hm1 with h | h <;> rcases hnm' with h' | h'
          · exact squadName_ne_of_ne ev ev' 0 0 (by omega) (by omega) hne
              (h.symm.trans h')
          · exact squadName_zero_ne_one ev ev' (h.symm.trans h')
          · exact squadName_zero_ne_one ev' ev (h'.symm.trans h)
          · exact squadName_ne_of_ne ev ev' 1 1 (by omega) (by omega) hne
              (h.symm.trans h')
        · intro nm hm
          rw [List.map_append] at hm
          rcases List.mem_append.1 hm with h | h
          · exact ⟨ev, List.mem_cons_self ev rest,
              hmem1 nm h⟩
          · obtain ⟨ev', hev', hnm'⟩ := hmem2 nm h
            exact ⟨ev', List.mem_cons_of_mem ev hev', hnm'⟩
        · intro p hp
          rcases List.mem_append.1 hp with h | h
          · exact hok1 p h
          · exact hok2 p h

theorem filter_flatten_nil (blocks : List (String × List RelayEntry)) (nm : String)
    (hok : ∀ p ∈ blocks, BlockOk p) (hnm : nm ∉ blocks.map Prod.fst) :
    ((blocks.map Prod.snd).flatten).filter (fun e => e.relay = nm) = [] := by
  induction blocks with
  | nil => rfl
  | cons b rest ih =>
    simp only [List.map_cons, List.flatten_cons, List.filter_append]
    have hrest : (rest.map Prod.snd).flatten.filter (fun e => e.relay = nm) = [] :=
      ih (fun p hp => hok p (List.mem_cons_of_mem b hp))
        (fun hm => hnm (List.mem_cons_of_mem _ hm))
    rw [hrest]
    have hhead : b.2.filter (fun e => e.relay = nm) = [] := by
      rcases hok b (List.mem_cons_self b rest) with h | h
      · rw [h]; rfl
      · refine List.filter_eq_nil_iff.2 (fun e he => ?_)
        have : e.relay = b.1 := h.2.2 e he
        have hne : b.1 ≠ nm := fun heq =>
          hnm (List.mem_map.2 ⟨b, List.mem_cons_self b rest, heq⟩)
        simp [this, hne]
    rw [hhead]
    rfl

theorem filter_of_blocks (blocks : List (String × List RelayEntry)) (nm : String)
    (hnd : (blocks.map Prod.fst).Nodup) (hok : ∀ p ∈ blocks, BlockOk p) :
    ((blocks.map Prod.snd).flatten).filter (fun e => e.relay = nm) = [] ∨
    (((blocks.map Prod.snd).flatten).filter (fun e => e.relay = nm)).length = 4 ∧
      ((((blocks.map Prod.snd).flatten).filter
        (fun e => e.relay = nm)).map RelayEntry.swimmer).Nodup := by
  induction blocks with
  | nil => exact Or.inl rfl
  | cons b rest ih =>
    have hokr : ∀ p ∈ rest, BlockOk p := fun p hp => hok p (List.mem_cons_of_mem b hp)
    have hndr : (rest.map Prod.fst).Nodup := (List.nodup_cons.1 (by simpa using hnd)).2
    have hbnotr : b.1 ∉ rest.map Prod.fst := (List.nodup_cons.1 (by simpa using hnd)).1
    simp only [List.map_cons, List.flatten_cons, List.filter_append]
    rcases hok b (List.mem_cons_self b rest) with hb | hb
    · rw [hb]
      simpa using ih hndr hokr
    · by_cases hname : b.1 = nm
      · have hall : b.2.filter (fun e => e.relay = nm) = b.2 :=
          List.filter_eq_self.2 (fun e he => by
            simp [hb.2.2 e he, hname])
        have hrest : (rest.map Prod.snd).flatten.filter (fun e => e.relay = nm) = [] :=
          filter_flatten_nil rest nm hokr (hname ▸ hbnotr)
        rw [hall, hrest, List.append_nil]
        exact Or.inr ⟨hb.1, hb.2.1⟩
      · have hhead : b.2.filter (fun e => e.relay = nm) = [] :=
          List.filter_eq_nil_iff.2 (fun e he => by
            simp [hb.2.2 e he, hname])
        rw [hhead, List.nil_append]
        exact ih hndr hokr

/-! ## Lemmas: decimal rendering parses back -/

theorem isDigit_digitChar_facts : ∀ n, n < 10 →
    isDigitChar (Nat.digitChar n) = true ∧ digitVal (Nat.digitChar n) = n := by
  decide

theorem isDigitChar_ne (c : Char) (h : isDigitChar c = true) :
    c ≠ '.' ∧ c ≠ ':' ∧ c ≠ '-' ∧ c ≠ '+' ∧ isSpaceChar c = false ∧ c ≠ 'n' := by
  have h' : '0' ≤ c ∧ c ≤ '9' := by
    simpa [isDigitChar] using h
  refine ⟨?_, ?_, ?_, ?_, ?_, ?_⟩
  · rintro rfl; revert h'; decide
  · rintro rfl; revert h'; decide
  · rintro rfl; revert h'; decide
  · rintro rfl; revert h'; decide
  · cases hsp : isSpaceChar c with
    | false => rfl
    | true =>
      exfalso
      have : ((c = ' ' ∨ c = '\t') ∨ c = '\n') ∨ c = '\r' := by
        simpa [isSpaceChar] using hsp
      rcases this with ((rfl | rfl) | rfl) | rfl <;> revert h' <;> decide
  · rintro rfl; revert h'; decide

theorem natDigitsGo_fuel : ∀ (f1 f2 n : ℕ) (acc : List Char), n ≤ f1 → n ≤ f2 →
    natDigitsGo f1 n acc = natDigitsGo f2 n acc := by
  intro f1
  induction f1 with
  | zero =>
    intro f2 n acc h1 _
    have hn : n = 0 := by omega
    subst hn
    cases f2 with
    | zero => rfl
    | succ f2' => simp [natDigitsGo]
  | succ f ih =>
    intro f2 n acc h1 h2
    by_cases hn : n < 10
    · cases f2 with
      | zero =>
        have hz : n = 0 := by omega
        subst hz
        simp [natDigitsGo]
      | succ f2' => simp [natDigitsGo, hn]
    · cases f2 with
      | zero => omega
      | succ f2' =>
        simp only [natDigitsGo, if_neg hn]
        have hd : n / 10 < n := Nat.div_lt_self (by omega) (by omega)
        exact ih f2' (n / 10) _ (by omega) (by omega)

theorem natDigitsGo_append : ∀ (f n : ℕ) (acc : List Char), n ≤ f →
    natDigitsGo f n acc = natDigitsGo f n [] ++ acc := by
  intro f
  induction f with
  | zero =>
    intro n acc h
    have hn : n = 0 := by omega
    subst hn
    rfl
  | succ f ih =>
    intro n acc h
    by_cases hn : n < 10
    · simp [natDigitsGo, hn]
    · simp only [natDigitsGo, if_neg hn]
      have hd : n / 10 < n := Nat.div_lt_self (by omega) (by omega)
      have hle : n / 10 ≤ f := by omega
      rw [ih (n / 10) _ hle, ih (n / 10) [Nat.digitChar (n % 10)] hle,
        List.append_assoc]
      rfl

theorem natToChars_lt {n : ℕ} (h : n < 10) : natToChars n = [Nat.digitChar n] := by
  cases n with
  | zero => rfl
  | succ m => simp [natToChars, natDigitsGo, h]

theorem natToChars_ge {n : ℕ} (h : ¬ n < 10) :
    natToChars n = natToChars (n / 10) ++ [Nat.digitChar (n % 10)] := by
  obtain ⟨m, rfl⟩ : ∃ m, n = m + 1 := ⟨n - 1, by omega⟩
  have hd : (m + 1) / 10 < m + 1 := Nat.div_lt_self (by omega) (by omega)
  unfold natToChars
  simp only [natDigitsGo, if_neg h]
  rw [natDigitsGo_fuel m ((m + 1) / 10) ((m + 1) / 10) _ (by omega) (le_refl _)]
  exact natDigitsGo_append ((m + 1) / 10) ((m + 1) / 10) _ (le_refl _)

theorem natToChars_all_digits : ∀ n : ℕ, ∀ c ∈ natToChars n, isDigitChar c = true := by
  intro n
  induction n using Nat.strong_induction_on with
  | _ n ih =>
    by_cases h : n < 10
    · rw [natToChars_lt h]
      intro c hc
      rw [List.mem_singleton] at hc
      subst hc
      exact (isDigit_digitChar_facts n h).1
    · rw [natToChars_ge h]
      intro c hc
      rcases List.mem_append.1 hc with h' | h'
      · exact ih (n / 10) (Nat.div_lt_self (by omega) (by omega)) c h'
      · rw [List.mem_singleton] at h'
        subst h'
        exact (isDigit_digitChar_facts (n % 10) (Nat.mod_lt n (by omega))).1

theorem natToChars_ne_nil (n : ℕ) : natToChars n ≠ [] := by
  by_cases h : n < 10
  · rw [natToChars_lt h]; simp
  · rw [natToChars_ge h]; simp

theorem digitsVal_from (b : List Char) : ∀ s : ℕ,
    b.foldl (fun a c => a * 10 + digitVal c) s = s * 10 ^ b.length + digitsVal b := by
  induction b with
  | nil => intro s; simp [digitsVal]
  | cons c cs ih =>
    intro s
    have h1 : (c :: cs).foldl (fun a c => a * 10 + digitVal c) s =
        cs.foldl (fun a c => a * 10 + digitVal c) (s * 10 + digitVal c) := rfl
    have h2 : digitsVal (c :: cs) = digitVal c * 10 ^ cs.length + digitsVal cs := by
      show cs.foldl (fun a c => a * 10 + digitVal c) (0 * 10 + digitVal c) = _
      rw [ih (0 * 10 + digitVal c)]
      norm_num
    rw [h1, ih (s * 10 + digitVal c), h2, List.length_cons]
    ring

theorem digitsVal_append (a b : List Char) :
    digitsVal (a ++ b) = digitsVal a * 10 ^ b.length + digitsVal b := by
  unfold digitsVal
  rw [List.foldl_append]
  exact digitsVal_from b _

theorem digitsVal_natToChars : ∀ n : ℕ, digitsVal (natToChars n) = n := by
  intro n
  induction n using Nat.strong_induction_on with
  | _ n ih =>
    by_cases h : n < 10
    · rw [natToChars_lt h]
      have := (isDigit_digitChar_facts n h).2
      simp [digitsVal, this]
    · rw [natToChars_ge h, digitsVal_append]
      have h1 := ih (n / 10) (Nat.div_lt_self (by omega) (by omega))
      have h2 := (isDigit_digitChar_facts (n % 10) (Nat.mod_lt n (by omega))).2
      have h3 : digitsVal [Nat.digitChar (n % 10)] = n % 10 := by
        simp [digitsVal, h2]
      rw [h1, h3]
      have := Nat.div_add_mod n 10
      simp only [List.length_singleton, pow_one]
      omega

theorem parseDigits_of_digits (l : List Char) (hne : l ≠ [])
    (hd : ∀ c ∈ l, isDigitChar c = true) : parseDigits l = some (digitsVal l) := by
  unfold parseDigits
  rw [if_pos ⟨hne, List.all_eq_true.2 hd⟩]

theorem parseIntChars_natToChars (n : ℕ) :
    parseIntChars (natToChars n) = some (n : ℤ) := by
  obtain ⟨c, cs, hcc⟩ : ∃ c cs, natToChars n = c :: cs := by
    rcases hl : natToChars n with _ | ⟨c, cs⟩
    · exact absurd hl (natToChars_ne_nil n)
    · exact ⟨c, cs, rfl⟩
  have hdig : isDigitChar c = true :=
    natToChars_all_digits n c (hcc ▸ List.mem_cons_self c cs)
  have hfacts := isDigitChar_ne c hdig
  rw [hcc]
  simp only [parseIntChars]
  rw [if_neg hfacts.2.2.1, if_neg hfacts.2.2.2.1,
    parseDigits_of_digits (c :: cs) (by simp)
      (fun d hdc => natToChars_all_digits n d (hcc ▸ hdc))]
  rw [← hcc, digitsVal_natToChars]
  rfl

theorem takeWhile_dropWhile_dot (ip fp : List Char)
    (h : ∀ c ∈ ip, isDigitChar c = true) :
    (ip ++ '.' :: fp).takeWhile (fun c => c ≠ '.') = ip ∧
    (ip ++ '.' :: fp).dropWhile (fun c => c ≠ '.') = '.' :: fp := by
  induction ip with
  | nil => simp [List.takeWhile, List.dropWhile]
  | cons c cs ih =>
    have hc : c ≠ '.' := (isDigitChar_ne c (h c (List.mem_cons_self c cs))).1
    have ih' := ih (fun d hd => h d (List.mem_cons_of_mem c hd))
    have hcd : decide (c ≠ '.') = true := decide_eq_true hc
    refine ⟨?_, ?_⟩
    · simp only [List.cons_append, List.takeWhile_cons, hcd]
      rw [if_true, ih'.1]
    · simp only [List.cons_append, List.dropWhile_cons, hcd]
      rw [if_true, ih'.2]

theorem takeWhile_dropWhile_all (ip : List Char)
    (h : ∀ c ∈ ip, isDigitChar c = true) :
    ip.takeWhile (fun c => c ≠ '.') = ip ∧
    ip.dropWhile (fun c => c ≠ '.') = [] := by
  induction ip with
  | nil => simp
  | cons c cs ih =>
    have hc : c ≠ '.' := (isDigitChar_ne c (h c (List.mem_cons_self c cs))).1
    have ih' := ih (fun d hd => h d (List.mem_cons_of_mem c hd))
    have hcd : decide (c ≠ '.') = true := decide_eq_true hc
    refine ⟨?_, ?_⟩
    · simp only [List.takeWhile_cons, hcd]
      rw [if_true, ih'.1]
    · simp only [List.dropWhile_cons, hcd]
      rw [if_true, ih'.2]

theorem parseUF_of_digits (ip : List Char) (hne : ip ≠ [])
    (hd : ∀ c ∈ ip, isDigitChar c = true) :
    parseUnsignedFloat ip = some (digitsVal ip : ℚ) := by
  unfold parseUnsignedFloat
  rw [(takeWhile_dropWhile_all ip hd).1, (takeWhile_dropWhile_all ip hd).2]
  rw [if_pos (List.all_eq_true.2 hd)]
  simp [hne]

theorem parseUF_decimal (ip fp : List Char) (hne : ip ≠ [])
    (hip : ∀ c ∈ ip, isDigitChar c = true)
    (hfp : ∀ c ∈ fp, isDigitChar c = true) :
    parseUnsignedFloat (ip ++ '.' :: fp) =
      some (decimalVal (digitsVal ip) (digitsVal fp) fp.length) := by
  unfold parseUnsignedFloat
  rw [(takeWhile_dropWhile_dot ip fp hip).1, (takeWhile_dropWhile_dot ip fp hip).2]
  rw [if_pos (List.all_eq_true.2 hip)]
  have h1 : fp.all isDigitChar = true := List.all_eq_true.2 hfp
  have h2 : ip.isEmpty = false := by
    cases ip with
    | nil => exact absurd rfl hne
    | cons c cs => rfl
  simp [h1, h2]

theorem parseFloatChars_digitHead (l : List Char) (c : Char) (cs : List Char)
    (hl : l = c :: cs) (hc : isDigitChar c = true) :
    parseFloatChars l = parseUnsignedFloat l := by
  have hfacts := isDigitChar_ne c hc
  rw [hl]
  simp only [parseFloatChars]
  rw [if_neg hfacts.2.2.1, if_neg hfacts.2.2.2.1]

theorem twoDigitChars_spec (m : ℕ) (h : m < 100) :
    (∀ c ∈ twoDigitChars m, isDigitChar c = true) ∧
    (twoDigitChars m).length = 2 ∧ digitsVal (twoDigitChars m) = m := by
  by_cases hm : m < 10
  · unfold twoDigitChars
    rw [if_pos hm]
    refine ⟨?_, rfl, ?_⟩
    · intro c hc
      rcases List.mem_cons.1 hc with h' | h'
      · subst h'; decide
      · rw [List.mem_singleton] at h'
        subst h'
        exact (isDigit_digitChar_facts m hm).1
    · have hdv := (isDigit_digitChar_facts m hm).2
      have h0 : digitVal '0' = 0 := by decide
      show (0 * 10 + digitVal '0') * 10 + digitVal (Nat.digitChar m) = m
      rw [h0, hdv]
      omega
  · unfold twoDigitChars
    rw [if_neg hm]
    refine ⟨natToChars_all_digits m, ?_, digitsVal_natToChars m⟩
    rw [natToChars_ge hm, natToChars_lt (show m / 10 < 10 by omega)]
    rfl

theorem renderCenti_digits_or_dot (c : ℕ) :
    ∀ ch ∈ renderCenti c, isDigitChar ch = true ∨ ch = '.' := by
  intro ch hch
  unfold renderCenti at hch
  rcases List.mem_append.1 hch with h | h
  · exact Or.inl (natToChars_all_digits _ ch h)
  · rcases List.mem_cons.1 h with h' | h'
    · exact Or.inr h'
    · exact Or.inl ((twoDigitChars_spec (c % 100) (Nat.mod_lt c (by omega))).1 ch h')

theorem renderCenti_length (c : ℕ) : 4 ≤ (renderCenti c).length := by
  unfold renderCenti
  rw [List.length_append, List.length_cons,
    (twoDigitChars_spec (c % 100) (Nat.mod_lt c (by omega))).2.1]
  have : 1 ≤ (natToChars (c / 100)).length := by
    rcases hl : natToChars (c / 100) with _ | ⟨x, xs⟩
    · exact absurd hl (natToChars_ne_nil _)
    · simp
  omega

theorem renderCentiPad_digits_or_dot (c : ℕ) :
    ∀ ch ∈ renderCentiPad c, isDigitChar ch = true ∨ ch = '.' := by
  intro ch hch
  unfold renderCentiPad at hch
  rcases List.mem_append.1 hch with h | h
  · by_cases hlt : c / 100 < 10
    · rw [if_pos hlt] at h
      rw [List.mem_singleton] at h
      subst h
      exact Or.inl (by decide)
    · rw [if_neg hlt] at h
      cases h
  · exact renderCenti_digits_or_dot c ch h

theorem splitOnSep_ne_nil (sep : Char) : ∀ l : List Char, splitOnSep sep l ≠ [] := by
  intro l
  induction l with
  | nil => simp [splitOnSep]
  | cons c cs ih =>
    by_cases hc : c = sep
    · simp [splitOnSep, hc]
    · simp only [splitOnSep, if_neg hc]
      rcases hs : splitOnSep sep cs with _ | ⟨h1, t1⟩
      · simp
      · simp

theorem splitOnSep_not_mem (sep : Char) :
    ∀ l : List Char, sep ∉ l → splitOnSep sep l = [l] := by
  intro l
  induction l with
  | nil => intro _; rfl
  | cons c cs ih =>
    intro h
    have hc : ¬ c = sep := fun he => h (he ▸ List.mem_cons_self c cs)
    have hcs : sep ∉ cs := fun hm => h (List.mem_cons_of_mem c hm)
    simp only [splitOnSep, if_neg hc, ih hcs]

theorem splitOnSep_append (sep : Char) :
    ∀ (a b : List Char), sep ∉ a →
      splitOnSep sep (a ++ sep :: b) = a :: splitOnSep sep b := by
  intro a
  induction a with
  | nil => intro b _; simp [splitOnSep]
  | cons c cs ih =>
    intro b h
    have hc : ¬ c = sep := fun he => h (he ▸ List.mem_cons_self c cs)
    have hcs : sep ∉ cs := fun hm => h (List.mem_cons_of_mem c hm)
    have hi := ih b hcs
    rcases hsp : splitOnSep sep (cs ++ sep :: b) with _ | ⟨h1, t1⟩
    · rw [hsp] at hi; cases hi
    · rw [hsp] at hi
      obtain ⟨rfl, rfl⟩ := List.cons.inj hi
      simp only [List.cons_append, splitOnSep, if_neg hc, List.append_eq, hsp]

theorem count_dropWhile_space (sep : Char) (hs : isSpaceChar sep = false) :
    ∀ l : List Char, (l.dropWhile isSpaceChar).count sep = l.count sep := by
  intro l
  induction l with
  | nil => rfl
  | cons c cs ih =>
    by_cases hc : isSpaceChar c = true
    · have hne : c ≠ sep := fun he => by rw [he, hs] at hc; cases hc
      rw [List.dropWhile_cons, if_pos hc, ih, List.count_cons]
      have : (c == sep) = false := beq_false_of_ne hne
      simp [this]
    · rw [List.dropWhile_cons, if_neg hc]

theorem count_stripChars (sep : Char) (hs : isSpaceChar sep = false)
    (l : List Char) : (stripChars l).count sep = l.count sep := by
  unfold stripChars
  rw [List.count_reverse, count_dropWhile_space sep hs, List.count_reverse,
    count_dropWhile_space sep hs]

theorem stripChars_ne_nil_of_mem (c : Char) (hc : isSpaceChar c = false)
    (l : List Char) (h : c ∈ l) : stripChars l ≠ [] := by
  intro he
  have h1 : 0 < l.count c := List.count_pos_iff.2 h
  have h2 := count_stripChars c hc l
  rw [he] at h2
  simp at h2
  omega

theorem mem_stripChars (c : Char) (hc : isSpaceChar c = false)
    (l : List Char) (h : c ∈ l) : c ∈ stripChars l := by
  have h2 := count_stripChars c hc l
  have h1 : 0 < l.count c := List.count_pos_iff.2 h
  exact List.count_pos_iff.1 (by omega)

theorem stripChars_eq_self (l : List Char)
    (h : ∀ c ∈ l, isSpaceChar c = false) : stripChars l = l := by
  have hdl : l.dropWhile isSpaceChar = l := by
    cases l with
    | nil => rfl
    | cons c cs => rw [List.dropWhile_cons, if_neg (by simp [h c (List.mem_cons_self c cs)])]
  unfold stripChars
  rw [hdl]
  have hdr : l.reverse.dropWhile isSpaceChar = l.reverse := by
    cases hr : l.reverse with
    | nil => rfl
    | cons c cs =>
      have hcmem : c ∈ l := by
        rw [← List.mem_reverse, hr]
        exact List.mem_cons_self c cs
      rw [List.dropWhile_cons, if_neg (by simp [h c hcmem])]
  rw [hdr, List.reverse_reverse]

theorem toLower_colon : Char.toLower ':' = ':' := by decide

theorem map_toLower_ne_nan_of_mem_colon (l : List Char) (h : ':' ∈ l) :
    l.map Char.toLower ≠ ['n', 'a', 'n'] := by
  intro he
  have : ':' ∈ l.map Char.toLower := List.mem_map.2 ⟨':', h, toLower_colon⟩
  rw [he] at this
  simp at this

theorem map_toLower_ne_nan_of_length (l : List Char) (h : l.length ≠ 3) :
    l.map Char.toLower ≠ ['n', 'a', 'n'] := by
  intro he
  have := congrArg List.length he
  simp at this
  exact h this

theorem dropWhile_head_false {p : Char → Bool} :
    ∀ (l : List Char) (r : Char) (t : List Char), l.dropWhile p = r :: t →
      p r = false := by
  intro l
  induction l with
  | nil => intro r t h; cases h
  | cons c cs ih =>
    intro r t h
    by_cases hc : p c = true
    · rw [List.dropWhile_cons, if_pos hc] at h
      exact ih r t h
    · rw [List.dropWhile_cons, if_neg hc] at h
      cases h
      simpa using hc

theorem parseUF_none_of_colon (l : List Char) (h : ':' ∈ l) :
    parseUnsignedFloat l = none := by
  have hsplit := List.takeWhile_append_dropWhile
    (p := fun c => decide (c ≠ '.')) (l := l)
  unfold parseUnsignedFloat
  by_cases hall : (l.takeWhile (fun c => c ≠ '.')).all isDigitChar = true
  · rw [if_pos hall]
    rcases hd : l.dropWhile (fun c => c ≠ '.') with _ | ⟨r, fp⟩
    · exfalso
      rw [hd, List.append_nil] at hsplit
      have h1 : ':' ∈ l.takeWhile (fun c => decide (c ≠ '.')) := by
        rw [hsplit]; exact h
      have h2 : isDigitChar ':' = true :=
        List.all_eq_true.1 hall ':' h1
      cases h2
    · have hr : r = '.' := by
        have := dropWhile_head_false l r fp hd
        simpa using this
      have hfpmem : ':' ∈ fp := by
        have h0 := h
        rw [← hsplit] at h0
        have h1 : ':' ∈ l.takeWhile (fun c => decide (c ≠ '.')) ∨ ':' ∈ r :: fp := by
          rcases List.mem_append.1 h0 with h1 | h1
          · exact Or.inl h1
          · rw [hd] at h1; exact Or.inr h1
        rcases h1 with h1 | h1
        · exact absurd (List.all_eq_true.1 hall ':' h1) (by decide)
        · rcases List.mem_cons.1 h1 with h2 | h2
          · rw [hr] at h2; cases h2
          · exact h2
      have hfall : fp.all isDigitChar = false := by
        rcases hfa : fp.all isDigitChar with _ | _
        · rfl
        · exact absurd (List.all_eq_true.1 hfa ':' hfpmem) (by decide)
      simp [hfall]
  · rw [if_neg hall]

theorem parseFloatChars_none_of_colon (l : List Char) (h : ':' ∈ l) :
    parseFloatChars l = none := by
  cases l with
  | nil => rfl
  | cons c cs =>
    simp only [parseFloatChars]
    by_cases hm : c = '-'
    · rw [if_pos hm]
      have : ':' ∈ cs := by
        rcases List.mem_cons.1 h with h1 | h1
        · rw [hm] at h1; cases h1
        · exact h1
      rw [parseUF_none_of_colon cs this]
      rfl
    · rw [if_neg hm]
      by_cases hp : c = '+'
      · rw [if_pos hp]
        have : ':' ∈ cs := by
          rcases List.mem_cons.1 h with h1 | h1
          · rw [hp] at h1; cases h1
          · exact h1
        exact parseUF_none_of_colon cs this
      · rw [if_neg hp]
        exact parseUF_none_of_colon (c :: cs) h

/-! ## Lemmas: rational value bridges and round-half-even -/

theorem mkRat_eq_div (n : ℤ) (d : ℕ) :
    mkRat n d = (n : ℚ) / (d : ℚ) := by
  rw [Rat.mkRat_eq_divInt, Rat.divInt_eq_div]
  norm_num

theorem rat_num_eq_mul_den (q : ℚ) : (q.num : ℚ) = q * q.den := by
  have hd : ((q.den : ℚ)) ≠ 0 := by
    exact_mod_cast q.den_ne_zero
  exact (div_eq_iff hd).1 (Rat.num_div_den q)

theorem decimalVal_eq (i f k : ℕ) :
    decimalVal i f k = (i : ℚ) + (f : ℚ) / (10 ^ k : ℚ) := by
  unfold decimalVal
  rw [mkRat_eq_div]
  have h10 : ((10 : ℚ) ^ k) ≠ 0 := by positivity
  push_cast
  field_simp

theorem intPlusRat_eq (i : ℤ) (q : ℚ) : intPlusRat i q = (i : ℚ) + q := by
  unfold intPlusRat
  have hd : ((q.den : ℚ)) ≠ 0 := by
    exact_mod_cast q.den_ne_zero
  rw [mkRat_eq_div]
  push_cast
  field_simp
  rw [rat_num_eq_mul_den q]
  ring

theorem qScale100_eq (x : ℚ) : qScale100 x = 100 * x := by
  unfold qScale100
  have hd : ((x.den : ℚ)) ≠ 0 := by
    exact_mod_cast x.den_ne_zero
  rw [mkRat_eq_div]
  push_cast
  field_simp
  rw [rat_num_eq_mul_den x]
  ring

theorem floorDiv60_eq (q : ℚ) : floorDiv60 q = ⌊q / 60⌋ := by
  unfold floorDiv60
  have hd : ((q.den : ℚ)) ≠ 0 := by
    exact_mod_cast q.den_ne_zero
  have h1 : q / 60 = ((q.num : ℤ) : ℚ) / ((60 * q.den : ℕ) : ℚ) := by
    push_cast
    field_simp
    rw [rat_num_eq_mul_den q]
    ring
  rw [h1, Rat.floor_intCast_div_natCast]
  rw [Int.fdiv_eq_ediv _ (by positivity)]
  norm_cast

theorem decimalVal_div_mod (c : ℕ) :
    decimalVal (c / 100) (c % 100) 2 = (c : ℚ) / 100 := by
  unfold decimalVal
  rw [mkRat_eq_div]
  push_cast
  rw [div_eq_div_iff (by norm_num) (by norm_num)]
  norm_cast
  omega



theorem roundHalfEven_spec (x : ℚ) :
    roundHalfEven x =
      if 2 * (x - ⌊x⌋) < 1 then ⌊x⌋
      else if 1 < 2 * (x - ⌊x⌋) then ⌊x⌋ + 1
      else if ⌊x⌋ % 2 = 0 then ⌊x⌋ else ⌊x⌋ + 1 := by
  unfold roundHalfEven
  have hf : x.num.fdiv x.den = ⌊x⌋ := by
    rw [Int.fdiv_eq_ediv _ (by positivity), Rat.floor_def]
  have hdpos : (0 : ℚ) < (x.den : ℚ) := by
    exact_mod_cast x.den_pos
  have harg : (2 : ℚ) * (x - (⌊x⌋ : ℚ)) * (x.den : ℚ) =
      ((2 * (x.num - ⌊x⌋ * x.den) : ℤ) : ℚ) := by
    push_cast
    rw [rat_num_eq_mul_den x]
    ring
  have h1 : (2 * (x.num - ⌊x⌋ * x.den) < (x.den : ℤ)) ↔
      2 * (x - (⌊x⌋ : ℚ)) < 1 := by
    constructor
    · intro h
      have hq : ((2 * (x.num - ⌊x⌋ * x.den) : ℤ) : ℚ) < ((x.den : ℚ)) := by
        exact_mod_cast h
      rw [← harg] at hq
      have h3 := (mul_lt_mul_right hdpos).1
        (by linarith : 2 * (x - (⌊x⌋ : ℚ)) * (x.den : ℚ) < 1 * (x.den : ℚ))
      linarith
    · intro h
      have hq : 2 * (x - (⌊x⌋ : ℚ)) * (x.den : ℚ) < 1 * (x.den : ℚ) :=
        (mul_lt_mul_right hdpos).2 h
      rw [harg, one_mul] at hq
      exact_mod_cast hq
  have h2 : ((x.den : ℤ) < 2 * (x.num - ⌊x⌋ * x.den)) ↔
      1 < 2 * (x - (⌊x⌋ : ℚ)) := by
    constructor
    · intro h
      have hq : ((x.den : ℚ)) < ((2 * (x.num - ⌊x⌋ * x.den) : ℤ) : ℚ) := by
        exact_mod_cast h
      rw [← harg] at hq
      have h3 := (mul_lt_mul_right hdpos).1
        (by linarith : 1 * (x.den : ℚ) < 2 * (x - (⌊x⌋ : ℚ)) * (x.den : ℚ))
      linarith
    · intro h
      have hq : 1 * (x.den : ℚ) < 2 * (x - (⌊x⌋ : ℚ)) * (x.den : ℚ) :=
        (mul_lt_mul_right hdpos).2 h
      rw [harg, one_mul] at hq
      exact_mod_cast hq
  rw [hf]
  simp only [h1, h2]

theorem roundHalfEven_cases (x : ℚ) :
    roundHalfEven x = ⌊x⌋ ∨ roundHalfEven x = ⌊x⌋ + 1 := by
  rw [roundHalfEven_spec]
  split_ifs <;> simp

theorem abs_roundHalfEven_sub (x : ℚ) :
    |(roundHalfEven x : ℚ) - x| ≤ 1 / 2 := by
  have hfl : ((⌊x⌋ : ℤ) : ℚ) ≤ x := Int.floor_le x
  have hfu : x < ((⌊x⌋ : ℤ) : ℚ) + 1 := Int.lt_floor_add_one x
  rw [roundHalfEven_spec]
  split_ifs with hc1 hc2 hc3 <;> push_cast <;> rw [abs_le] <;> constructor <;> linarith

theorem roundHalfEven_add_int_even (x : ℚ) (j : ℤ) (hj : j % 2 = 0) :
    roundHalfEven (x + (j : ℚ)) = roundHalfEven x + j := by
  rw [roundHalfEven_spec, roundHalfEven_spec]
  have hfl : ⌊x + (j : ℚ)⌋ = ⌊x⌋ + j := Int.floor_add_int x j
  rw [hfl]
  have harg : x + (j : ℚ) - ((⌊x⌋ + j : ℤ) : ℚ) = x - (⌊x⌋ : ℚ) := by
    push_cast
    ring
  rw [harg]
  have hpar : (⌊x⌋ + j) % 2 = ⌊x⌋ % 2 := by omega
  rw [hpar]
  split_ifs <;> ring

theorem roundHalfEven_nonneg (x : ℚ) (h : 0 ≤ x) : 0 ≤ roundHalfEven x := by
  have hf : 0 ≤ ⌊x⌋ := Int.floor_nonneg.2 h
  rcases roundHalfEven_cases x with he | he <;> rw [he] <;> omega

/-! ## Lemmas: full parses of well-formed and rendered time strings -/

theorem toLower_dot : Char.toLower '.' = '.' := by decide

theorem map_toLower_ne_nan_of_mem_dot (l : List Char) (h : '.' ∈ l) :
    l.map Char.toLower ≠ ['n', 'a', 'n'] := by
  intro he
  have hm : '.' ∈ l.map Char.toLower := List.mem_map.2 ⟨'.', h, toLower_dot⟩
  rw [he] at hm
  simp at hm

theorem contains_eq_false_of_not_mem {l : List Char} {a : Char} (h : a ∉ l) :
    l.contains a = false := by
  rcases hb : l.contains a with _ | _
  · rfl
  · exact absurd (List.elem_iff.1 hb) h

theorem contains_eq_true_of_mem {l : List Char} {a : Char} (h : a ∈ l) :
    l.contains a = true :=
  List.elem_iff.2 h

theorem nospace_of_digit_dot_colon (l : List Char)
    (h : ∀ ch ∈ l, isDigitChar ch = true ∨ ch = '.' ∨ ch = ':') :
    ∀ ch ∈ l, isSpaceChar ch = false := by
  intro ch hch
  rcases h ch hch with h1 | h1 | h1
  · exact (isDigitChar_ne ch h1).2.2.2.2.1
  · subst h1; decide
  · subst h1; decide

theorem parseIntChars_digits (l : List Char) (hne : l ≠ [])
    (hd : ∀ c ∈ l, isDigitChar c = true) :
    parseIntChars l = some (digitsVal l : ℤ) := by
  rcases l with _ | ⟨c, cs⟩
  · exact absurd rfl hne
  · have hc := isDigitChar_ne c (hd c (List.mem_cons_self c cs))
    simp only [parseIntChars]
    rw [if_neg hc.2.2.1, if_neg hc.2.2.2.1,
      parseDigits_of_digits (c :: cs) (by simp) hd]
    rfl

theorem digitsVal_cons_zero (l : List Char) :
    digitsVal ('0' :: l) = digitsVal l := by
  unfold digitsVal
  show l.foldl (fun a c => a * 10 + digitVal c) (0 * 10 + digitVal '0') =
    l.foldl (fun a c => a * 10 + digitVal c) 0
  have h : 0 * 10 + digitVal '0' = 0 := by decide
  rw [h]

theorem timeToSecondsChars_ssss (ip fp : List Char) (hne : ip ≠ [])
    (hip : ∀ c ∈ ip, isDigitChar c = true)
    (hfp : ∀ c ∈ fp, isDigitChar c = true) :
    timeToSecondsChars (ip ++ '.' :: fp) =
      some (decimalVal (digitsVal ip) (digitsVal fp) fp.length) := by
  rcases ip with _ | ⟨c, cs⟩
  · exact absurd rfl hne
  have hc : isDigitChar c = true := hip c (List.mem_cons_self c cs)
  have hdd : ∀ ch ∈ (c :: cs) ++ '.' :: fp,
      isDigitChar ch = true ∨ ch = '.' ∨ ch = ':' := by
    intro ch hch
    rcases List.mem_append.1 hch with h1 | h1
    · exact Or.inl (hip ch h1)
    · rcases List.mem_cons.1 h1 with h2 | h2
      · exact Or.inr (Or.inl h2)
      · exact Or.inl (hfp ch h2)
  have hstrip : stripChars ((c :: cs) ++ '.' :: fp) = (c :: cs) ++ '.' :: fp :=
    stripChars_eq_self _ (nospace_of_digit_dot_colon _ hdd)
  have hnenil : ((c :: cs) ++ '.' :: fp) ≠ [] := by simp
  have hdot : '.' ∈ (c :: cs) ++ '.' :: fp :=
    List.mem_append.2 (Or.inr (List.mem_cons_self _ _))
  have hnan := map_toLower_ne_nan_of_mem_dot _ hdot
  have hnocolon : ':' ∉ (c :: cs) ++ '.' :: fp := by
    intro hcl
    rcases List.mem_append.1 hcl with h1 | h1
    · exact absurd (hip ':' h1) (by decide)
    · rcases List.mem_cons.1 h1 with h2 | h2
      · exact absurd h2 (by decide)
      · exact absurd (hfp ':' h2) (by decide)
  have hcont : ((c :: cs) ++ '.' :: fp).contains ':' = false :=
    contains_eq_false_of_not_mem hnocolon
  unfold timeToSecondsChars
  rw [hstrip, if_neg hnenil, if_neg hnan]
  simp only [hcont, Bool.false_eq_true, if_false]
  rw [parseFloatChars_digitHead ((c :: cs) ++ '.' :: fp) c (cs ++ '.' :: fp) rfl hc]
  exact parseUF_decimal (c :: cs) fp (by simp) hip hfp

theorem timeToSecondsChars_mssss (mp ip fp : List Char)
    (hmne : mp ≠ []) (hne : ip ≠ [])
    (hmp : ∀ c ∈ mp, isDigitChar c = true)
    (hip : ∀ c ∈ ip, isDigitChar c = true)
    (hfp : ∀ c ∈ fp, isDigitChar c = true) :
    timeToSecondsChars (mp ++ ':' :: (ip ++ '.' :: fp)) =
      some (intPlusRat ((digitsVal mp : ℤ) * 60)
        (decimalVal (digitsVal ip) (digitsVal fp) fp.length)) := by
  rcases ip with _ | ⟨c, cs⟩
  · exact absurd rfl hne
  have hc : isDigitChar c = true := hip c (List.mem_cons_self c cs)
  have hdd : ∀ ch ∈ mp ++ ':' :: ((c :: cs) ++ '.' :: fp),
      isDigitChar ch = true ∨ ch = '.' ∨ ch = ':' := by
    intro ch hch
    rcases List.mem_append.1 hch with h1 | h1
    · exact Or.inl (hmp ch h1)
    · rcases List.mem_cons.1 h1 with h2 | h2
      · exact Or.inr (Or.inr h2)
      · rcases List.mem_append.1 h2 with h3 | h3
        · exact Or.inl (hip ch h3)
        · rcases List.mem_cons.1 h3 with h4 | h4
          · exact Or.inr (Or.inl h4)
          · exact Or.inl (hfp ch h4)
  have hstrip : stripChars (mp ++ ':' :: ((c :: cs) ++ '.' :: fp)) =
      mp ++ ':' :: ((c :: cs) ++ '.' :: fp) :=
    stripChars_eq_self _ (nospace_of_digit_dot_colon _ hdd)
  have hcolmem : ':' ∈ mp ++ ':' :: ((c :: cs) ++ '.' :: fp) :=
    List.mem_append.2 (Or.inr (List.mem_cons_self _ _))
  have hnenil : (mp ++ ':' :: ((c :: cs) ++ '.' :: fp)) ≠ [] := by
    intro he
    rw [he] at hcolmem
    cases hcolmem
  have hnan := map_toLower_ne_nan_of_mem_colon _ hcolmem
  have hcont : (mp ++ ':' :: ((c :: cs) ++ '.' :: fp)).contains ':' = true :=
    contains_eq_true_of_mem hcolmem
  have hmpnc : ':' ∉ mp := fun hm => absurd (hmp ':' hm) (by decide)
  have hrestnc : ':' ∉ (c :: cs) ++ '.' :: fp := by
    intro hcl
    rcases List.mem_append.1 hcl with h1 | h1
    · exact absurd (hip ':' h1) (by decide)
    · rcases List.mem_cons.1 h1 with h2 | h2
      · exact absurd h2 (by decide)
      · exact absurd (hfp ':' h2) (by decide)
  have hsplit : splitOnSep ':' (mp ++ ':' :: ((c :: cs) ++ '.' :: fp)) =
      [mp, (c :: cs) ++ '.' :: fp] := by
    rw [splitOnSep_append ':' mp _ hmpnc, splitOnSep_not_mem ':' _ hrestnc]
  unfold timeToSecondsChars
  rw [hstrip, if_neg hnenil, if_neg hnan]
  simp only [hcont, if_true, hsplit]
  rw [parseIntChars_digits mp hmne hmp]
  rw [parseFloatChars_digitHead ((c :: cs) ++ '.' :: fp) c (cs ++ '.' :: fp) rfl hc]
  rw [parseUF_decimal (c :: cs) fp (by simp) hip hfp]

theorem splitOnSep_length (sep : Char) :
    ∀ l : List Char, (splitOnSep sep l).length = l.count sep + 1 := by
  intro l
  induction l with
  | nil => rfl
  | cons c cs ih =>
    by_cases hc : c = sep
    · subst hc
      simp only [splitOnSep, if_pos rfl, List.length_cons, List.count_cons]
      simp
      exact ih
    · simp only [splitOnSep, if_neg hc]
      rcases hsp : splitOnSep sep cs with _ | ⟨h1, t1⟩
      · exact absurd hsp (splitOnSep_ne_nil sep cs)
      · rw [hsp] at ih
        simp only [List.length_cons] at ih ⊢
        rw [List.count_cons]
        have hb : (c == sep) = false := beq_false_of_ne hc
        simp only [hb, Bool.false_eq_true, if_false]
        omega

theorem timeToSecondsChars_two_colons (l : List Char) (h : 2 ≤ l.count ':') :
    timeToSecondsChars l = none := by
  have hmem : ':' ∈ l := List.count_pos_iff.1 (by omega)
  have hscount : (stripChars l).count ':' = l.count ':' :=
    count_stripChars ':' (by decide) l
  have hsne : stripChars l ≠ [] := stripChars_ne_nil_of_mem ':' (by decide) l hmem
  have hsmem : ':' ∈ stripChars l := List.count_pos_iff.1 (by omega)
  have hcont : (stripChars l).contains ':' = true := contains_eq_true_of_mem hsmem
  have hlen := splitOnSep_length ':' (stripChars l)
  unfold timeToSecondsChars
  rw [if_neg hsne, if_neg (map_toLower_ne_nan_of_mem_colon l hmem)]
  simp only [hcont, if_true]
  rcases hsp : splitOnSep ':' (stripChars l) with _ | ⟨a, rest⟩
  · exact absurd hsp (splitOnSep_ne_nil _ _)
  · rcases rest with _ | ⟨b, rest2⟩
    · rw [hsp] at hlen
      simp only [List.length_cons, List.length_nil] at hlen
      omega
    · rcases rest2 with _ | ⟨c2, rest3⟩
      · rw [hsp] at hlen
        simp only [List.length_cons, List.length_nil] at hlen
        omega
      · exact parseFloatChars_none_of_colon _ hsmem

theorem timeToSecondsChars_renderCenti (cn : ℕ) :
    timeToSecondsChars (renderCenti cn) = some ((cn : ℚ) / 100) := by
  have hmod : cn % 100 < 100 := by omega
  have htwo := twoDigitChars_spec (cn % 100) hmod
  unfold renderCenti
  rw [timeToSecondsChars_ssss (natToChars (cn / 100)) (twoDigitChars (cn % 100))
    (natToChars_ne_nil _) (natToChars_all_digits _) htwo.1]
  rw [digitsVal_natToChars, htwo.2.2, htwo.2.1, decimalVal_div_mod]

theorem timeToSecondsChars_mm (n cn : ℕ) :
    timeToSecondsChars (natToChars n ++ ':' :: renderCentiPad cn) =
      some ((n : ℚ) * 60 + (cn : ℚ) / 100) := by
  have hmod : cn % 100 < 100 := by omega
  have htwo := twoDigitChars_spec (cn % 100) hmod
  by_cases hlt : cn / 100 < 10
  · have hip0 : ∀ c ∈ '0' :: natToChars (cn / 100), isDigitChar c = true := by
      intro c hc
      rcases List.mem_cons.1 hc with h1 | h1
      · subst h1; decide
      · exact natToChars_all_digits _ c h1
    have hpad : renderCentiPad cn =
        ('0' :: natToChars (cn / 100)) ++ '.' :: twoDigitChars (cn % 100) := by
      unfold renderCentiPad renderCenti
      rw [if_pos hlt]
      rfl
    rw [hpad]
    rw [timeToSecondsChars_mssss (natToChars n) ('0' :: natToChars (cn / 100))
      (twoDigitChars (cn % 100)) (natToChars_ne_nil n) (by simp)
      (natToChars_all_digits n) hip0 htwo.1]
    rw [digitsVal_natToChars, digitsVal_cons_zero, digitsVal_natToChars,
      htwo.2.2, htwo.2.1, decimalVal_div_mod, intPlusRat_eq]
    congr 1
    push_cast
    ring
  · have hpad : renderCentiPad cn = renderCenti cn := by
      unfold renderCentiPad
      rw [if_neg hlt]
      rfl
    rw [hpad]
    unfold renderCenti
    rw [timeToSecondsChars_mssss (natToChars n) (natToChars (cn / 100))
      (twoDigitChars (cn % 100)) (natToChars_ne_nil n) (natToChars_ne_nil _)
      (natToChars_all_digits n) (natToChars_all_digits _) htwo.1]
    rw [digitsVal_natToChars, digitsVal_natToChars,
      htwo.2.2, htwo.2.1, decimalVal_div_mod, intPlusRat_eq]
    congr 1
    push_cast
    ring

theorem toNat_cast_q (x : ℤ) (hx : 0 ≤ x) : ((x.toNat : ℕ) : ℚ) = (x : ℚ) := by
  exact_mod_cast Int.toNat_of_nonneg hx

/-! ## Claim theorems -/

/-- C1: the claim says every athlete's Ledger count stays at or below
`max_events_per_swimmer` throughout a run and that the Relay Team Builder
only selects candidates whose count is below the cap.  The code has no
such check (its `max_total_events` parameter is never read): with the cap
set to 3, swimmer `S` — fastest on every stroke — is placed on the A squad
of all four relay types, so the builder returns a ledger of 4 for `S`
(their squads listed below), and the ledger stays at 4 > 3 after the
individual assignor runs on top of it. -/
theorem C1_relay_builder_ignores_cap :
    relayCountsOf (create_relay_teams c1Table c1Events 3) "S" = 4 ∧
    ((relayEntriesOf (create_relay_teams c1Table c1Events 3)).filter
      (fun e => e.swimmer = "S")).map RelayEntry.relay =
      ["200 Medley Relay A", "400 Medley Relay A",
       "200 Free Relay A", "400 Free Relay A"] ∧
    (round_robin_assignment c1Long 3 4
      (relayCountsOf (create_relay_teams c1Table c1Events 3))).2 "S" = 4 ∧
    3 < 4 := by
  decide

/-- C2 (counterexample): the claim describes the plain assignor as a
pooled, repeated round-robin scan to a fixed point; on this concrete frame
the code (one pass per event, filling each event before moving on) and the
specification's pooled algorithm produce different lineups. -/
theorem C2_not_the_pooled_assignor :
    ((round_robin_assignment c2Rows 1 2 zeroCounts).1.map
      (fun a => (a.event, a.swimmer))) = [("E1", "A"), ("E1", "B")] ∧
    ((specPlainAssignor c2Rows 1 2 zeroCounts).1.map
      (fun a => (a.event, a.swimmer))) = [("E1", "A"), ("E2", "B")] ∧
    ((round_robin_assignment c2Rows 1 2 zeroCounts).1.map
      (fun a => (a.event, a.swimmer))) ≠
      ((specPlainAssignor c2Rows 1 2 zeroCounts).1.map
        (fun a => (a.event, a.swimmer))) := by
  decide

/-- C2 (amended): `round_robin_assignment` is a single pass — each event of
the frame exactly once, in first-appearance order, filled greedily
fastest-first under the ledger cap up to `swimmers_per_event`; there is no
global cross-event pool, no repeated scanning, and no iteration ceiling. -/
theorem C2_single_pass :
    ∀ (t : List LongRow) (m p : ℕ) (k : Counts),
      round_robin_assignment t m p k = singlePassAssignor t m p k := by
  intro t m p k
  unfold round_robin_assignment singlePassAssignor
  by_cases ht : t = []
  · simp [ht]
  · simp [ht, roundRobinGo_eq_singlePassGo]

/-- C3 (counterexample): the claim says relay points are awarded by
comparing the two teams' representative times head-to-head under the
11-4-2-0 table.  The code instead compares the own representative time
against every opponent squad total: with identical representative times
(120 vs 100) the points differ depending on whether the opponent fielded
one squad (4 points) or two (2 points), so the points are not a function
of the two representative times. -/
theorem C3_points_not_head_to_head :
    repTime [('A', 120)] = some 120 ∧
    repTime [('A', 100)] = some 100 ∧
    repTime [('A', 100), ('B', 110)] = some 100 ∧
    calculate_relay_points_vs_opponent [('A', 120)] [('A', 100)] = 4 ∧
    calculate_relay_points_vs_opponent [('A', 120)] [('A', 100), ('B', 110)] = 2 := by
  decide

/-- C3 (amended): a squad's recorded time is the sum of its legs' parsed
seconds (stored under its base name and letter when the name is the unique
one mapping there, all legs parse, and the total is positive); a team's
representative time is the minimum over its own squad totals; and the own
representative is compared against every opponent squad total under the
11/4/2/0 cascade — in particular the team with the strictly faster
representative time receives 11 points, while a team at or behind both
squads of a two-squad opponent receives 2, not the head-to-head 4. -/
theorem C3_relay_scoring_amended
    (entries : List RelayEntry) (nm : String) (tot : ℚ)
    (hmem : nm ∈ relayNamesOf entries)
    (huniq : ∀ nm' ∈ relayNamesOf entries,
      relayBaseName nm' = relayBaseName nm →
      relayTeamLetter nm' = relayTeamLetter nm → nm' = nm)
    (htot : legsTotal (entries.filter (fun e => e.relay = nm)) = some tot)
    (hpos : 0 < tot)
    (ourT oppT : List (Char × ℚ)) (ourRep oppRep : ℚ)
    (hour : repTime ourT = some ourRep) (hopp : repTime oppT = some oppRep) :
    lookupNested (calculate_relay_times entries)
      (relayBaseName nm) (relayTeamLetter nm) = some tot ∧
    (ourRep < oppRep → calculate_relay_points_vs_opponent ourT oppT = 11) ∧
    (oppT.length = 2 → (∀ t ∈ oppT.map Prod.snd, t ≤ ourRep) →
      calculate_relay_points_vs_opponent ourT oppT = 2) := by
  have hoppne : oppT ≠ [] := by
    intro h; rw [h] at hopp; cases hopp
  have hourne : ourT ≠ [] := by
    intro h; rw [h] at hour; cases hour
  refine ⟨?_, ?_, ?_⟩
  · exact calcRelayTimesGo_found entries nm tot htot hpos
      (relayNamesOf entries) [] hmem (dedupFirst_nodup _) huniq
  · intro hfaster
    rcases ourT with _ | ⟨⟨c0, v0⟩, ts⟩
    · exact absurd rfl hourne
    · have hbest : repTime ((c0, v0) :: ts) = some ((ts.map Prod.snd).foldl qMin v0) := by
        simp [repTime]
      rw [hour] at hbest
      have hrep : ourRep = (ts.map Prod.snd).foldl qMin v0 :=
        Option.some.inj hbest
      have hall : ∀ t ∈ oppT.map Prod.snd,
          ((ts.map Prod.snd).foldl qMin v0) < t := by
        intro t ht
        calc (ts.map Prod.snd).foldl qMin v0 = ourRep := hrep.symm
        _ < oppRep := hfaster
        _ ≤ t := repTime_le oppT oppRep hopp t ht
      have hbeaten : (oppT.map Prod.snd).countP
          (fun t => decide ((ts.map Prod.snd).foldl qMin v0 < t)) =
          (oppT.map Prod.snd).length :=
        List.countP_eq_length.2 (fun t ht => decide_eq_true (hall t ht))
      simp [calculate_relay_points_vs_opponent, hoppne, hbeaten]
  · intro hlen hall
    rcases ourT with _ | ⟨⟨c0, v0⟩, ts⟩
    · exact absurd rfl hourne
    · have hbest : repTime ((c0, v0) :: ts) = some ((ts.map Prod.snd).foldl qMin v0) := by
        simp [repTime]
      rw [hour] at hbest
      have hrep : ourRep = (ts.map Prod.snd).foldl qMin v0 :=
        Option.some.inj hbest
      have hbeaten : (oppT.map Prod.snd).countP
          (fun t => decide ((ts.map Prod.snd).foldl qMin v0 < t)) = 0 := by
        refine List.countP_eq_zero.2 (fun t ht => ?_)
        have hle : t ≤ (ts.map Prod.snd).foldl qMin v0 := hrep ▸ hall t ht
        simp [not_lt.2 hle]
      have hlen2 : (oppT.map Prod.snd).length = 2 := by
        rw [List.length_map]; exact hlen
      simp [calculate_relay_points_vs_opponent, hoppne, hbeaten, hlen2]

/-- C3 (witness): the amended relay-scoring theorem applied to a concrete
squad and two concrete score comparisons. -/
theorem C3_relay_scoring_amended_witness :
    lookupNested (calculate_relay_times c3Entries)
      (relayBaseName "200 Free Relay A") (relayTeamLetter "200 Free Relay A") =
      some 106 ∧
    (100 < 120 → calculate_relay_points_vs_opponent
      [('A', 100)] [('A', 120), ('B', 125)] = 11) ∧
    (([('A', 120), ('B', 125)] : List (Char × ℚ)).length = 2 →
      (∀ t ∈ ([('A', 120), ('B', 125)] : List (Char × ℚ)).map Prod.snd, t ≤ (130 : ℚ)) →
      calculate_relay_points_vs_opponent [('A', 130)] [('A', 120), ('B', 125)] = 2) := by
  have h := C3_relay_scoring_amended c3Entries "200 Free Relay A" 106
    (by decide) (by decide) (by decide) (by norm_num)
    [('A', 130)] [('A', 120), ('B', 125)] 130 120 (by decide) (by decide)
  have h2 := C3_relay_scoring_amended c3Entries "200 Free Relay A" 106
    (by decide) (by decide) (by decide) (by norm_num)
    [('A', 100)] [('A', 120), ('B', 125)] 100 120 (by decide) (by decide)
  exact ⟨h.1, fun _ => h2.2.1 (by norm_num), h.2.2⟩

/-- C4 (counterexample): the claim's rule — 9 if faster than every
opposing time, then 4/3/2/1 by the exact count of opposing times strictly
faster, 0 otherwise — awards 0 to an own time of 55.00 that exactly ties
the single opposing time (not faster than every, beaten by none); the code
awards 4, because its cascade counts the tied time as beaten-or-equalled.
-/
theorem C4_tie_breaks_the_claim :
    specIndividualPoints 55 [55] = 0 ∧
    calculate_individual_points_vs_opponent (some 55) [some 55] = 4 ∧
    specIndividualPoints 55 [55] ≠
      calculate_individual_points_vs_opponent (some 55) [some 55] := by
  decide

/-- C4 (amended): for a valid own time against at least one valid opposing
time, with `m` the number of valid opposing times faster than or equal to
the own time, the code awards 9 points when `m = 0` (faster than every
opposing time), 4 when `m = 1`, 3 when `m = 2`, 2 when `m = 3`, 1 when
`m = 4`, and 0 otherwise; so a tie counts toward the better bracket, and
55.00 against [54.00, 56.00, 58.00] (where `m = 1`) scores 4. -/
theorem C4_points_bracket (q : ℚ) (oppRaw : List (Option ℚ))
    (hval : oppRaw.filterMap id ≠ []) :
    calculate_individual_points_vs_opponent (some q) oppRaw =
      (if (oppRaw.filterMap id).countP (fun t => decide (t ≤ q)) = 0 then 9
       else if (oppRaw.filterMap id).countP (fun t => decide (t ≤ q)) = 1 then 4
       else if (oppRaw.filterMap id).countP (fun t => decide (t ≤ q)) = 2 then 3
       else if (oppRaw.filterMap id).countP (fun t => decide (t ≤ q)) = 3 then 2
       else if (oppRaw.filterMap id).countP (fun t => decide (t ≤ q)) = 4 then 1
       else 0) := by
  have hraw : oppRaw ≠ [] := by
    intro h; rw [h] at hval; exact hval rfl
  set opp := oppRaw.filterMap id with hopp
  set n := opp.length with hn
  set beaten := opp.countP (fun t => decide (q < t)) with hbeaten
  set m := opp.countP (fun t => decide (t ≤ q)) with hm
  have hsum : n = beaten + m := by
    rw [hn, hbeaten, hm]
    rw [List.length_eq_countP_add_countP (fun t => decide (q < t))]
    congr 1
    refine List.countP_congr (fun t _ => ?_)
    simp [not_lt]
  have hmn : m ≤ n := by rw [hm, hn]; exact List.countP_le_length _
  have hbn : beaten ≤ n := by rw [hbeaten, hn]; exact List.countP_le_length _
  have hn1 : 1 ≤ n := by
    rw [hn]
    rcases opp with _ | ⟨x, xs⟩
    · exact absurd rfl hval
    · simp
  unfold calculate_individual_points_vs_opponent
  rw [if_neg hraw]
  simp only [← hopp, ← hn, ← hbeaten]
  rw [if_neg hval]
  split_ifs <;> omega

/-- C4 (witness): the amended bracket applied to the claim's own scenario,
55.00 against [54.00, 56.00, 58.00], yielding 4 points. -/
theorem C4_points_bracket_witness :
    calculate_individual_points_vs_opponent (some 55)
      [some 54, some 56, some 58] = 4 := by
  rw [C4_points_bracket 55 [some 54, some 56, some 58] (by decide)]
  decide

/-- C5 (counterexample): the claim says a relay type with insufficient
eligible athletes contributes zero squads rather than an error.  When no
leg of a requested relay type has any eligible athlete, the builder
instead raises: `min()` over the empty sequence of non-empty pool sizes
(the `if min_swimmers < 1` guard of the source is dead code because empty
pools are filtered out of the `min`). -/
theorem C5_no_eligible_athlete_raises :
    create_relay_teams [⟨"X", []⟩] ["200 Free Relay"] 4 = .error () := rfl

/-- C5 (amended): every relay squad present in the builder's output has
exactly 4 legs filled by 4 distinct athletes, and a squad with fewer than
4 fillable legs is never emitted; a relay type with some but too few
eligible athletes contributes zero squads — but when no leg of a requested
relay type has any eligible athlete the builder raises a `ValueError`
instead of contributing zero squads. -/
theorem C5_squads_complete_and_distinct (t : List WideRow) (evs : List String)
    (mt : ℕ) (hnd : evs.Nodup) (nm : String)
    (hne : (relayEntriesOf (create_relay_teams t evs mt)).filter
      (fun e => e.relay = nm) ≠ []) :
    ((relayEntriesOf (create_relay_teams t evs mt)).filter
      (fun e => e.relay = nm)).length = 4 ∧
    (((relayEntriesOf (create_relay_teams t evs mt)).filter
      (fun e => e.relay = nm)).map RelayEntry.swimmer).Nodup := by
  obtain ⟨blocks, hout, hndb, _, hok⟩ := createRelayGo_blocks t evs zeroCounts hnd
  have hout' : relayEntriesOf (create_relay_teams t evs mt) =
      (blocks.map Prod.snd).flatten := hout
  rw [hout'] at hne ⊢
  rcases filter_of_blocks blocks nm hndb hok with h | h
  · exact absurd h hne
  · exact h

/-- C5 (witness): the amended invariant applied to the concrete four-relay
run, at the squad `200 Medley Relay A`. -/
theorem C5_squads_complete_and_distinct_witness :
    ((relayEntriesOf (create_relay_teams c1Table c1Events 3)).filter
      (fun e => e.relay = "200 Medley Relay A")).length = 4 ∧
    (((relayEntriesOf (create_relay_teams c1Table c1Events 3)).filter
      (fun e => e.relay = "200 Medley Relay A")).map RelayEntry.swimmer).Nodup :=
  C5_squads_complete_and_distinct c1Table c1Events 3 (by decide)
    "200 Medley Relay A" (by decide)

/-- C6: the claim says no athlete is ever assigned twice to the same event,
even on frames with duplicate athlete-event rows.  The code never checks
whether a swimmer is already assigned to the current event: on a frame
with two rows for swimmer `S` in event `E`, both assignors assign `S` to
`E` twice (the per-event slot cap is the only thing they respect). -/
theorem C6_duplicate_assignment :
    ((round_robin_assignment c6Rows 4 4 zeroCounts).1.map
      (fun a => (a.event, a.swimmer))) = [("E", "S"), ("E", "S")] ∧
    ¬ ((round_robin_assignment c6Rows 4 4 zeroCounts).1.map
        Assign.swimmer).Nodup ∧
    ((strategic_dual_meet_assignment c6Rows c6Opp 4 4 zeroCounts).1.map
      (fun a => (a.event, a.swimmer))) = [("E", "S"), ("E", "S")] := by
  decide

/-- C8 (counterexample): the claim says repeated runs on identical input
produce identical assignments.  The strategic assignor iterates the
`common_events` Python set, whose enumeration order is incidental; the two
orders below enumerate the same two common events, yet the single
cap-limited swimmer `A` is assigned to `E1` under one order and to `E2`
under the other. -/
theorem C8_set_order_changes_output :
    List.Perm ["E2", "E1"] (commonEventsList c8U c8O) ∧
    (["E2", "E1"] : List String).Nodup ∧
    (strategicWithOrder (commonEventsList c8U c8O) c8U c8O 1 1 zeroCounts).1 ≠
      (strategicWithOrder ["E2", "E1"] c8U c8O 1 1 zeroCounts).1 := by
  decide

/-- C8 (amended): the engine is a pure function of its inputs together
with the enumeration order of the strategic assignor's `common_events`
set: two runs that agree on the inputs and on that order produce identical
relay squads and assignments; only runs differing in the incidental set
order can differ. -/
theorem C8_deterministic_given_order (order1 order2 : List String)
    (u o : List LongRow) (m p : ℕ) (k : Counts)
    (t : List WideRow) (evs : List String) (mt : ℕ)
    (horder : order1 = order2) :
    strategicWithOrder order1 u o m p k = strategicWithOrder order2 u o m p k ∧
    create_relay_teams t evs mt = create_relay_teams t evs mt ∧
    round_robin_assignment u m p k = round_robin_assignment u m p k := by
  exact ⟨by rw [horder], rfl, rfl⟩

/-- C8 (witness): fixed-order determinism applied at the concrete
order-dependence run. -/
theorem C8_deterministic_given_order_witness :
    strategicWithOrder ["E1", "E2"] c8U c8O 1 1 zeroCounts =
      strategicWithOrder ["E1", "E2"] c8U c8O 1 1 zeroCounts ∧
    create_relay_teams c1Table c1Events 4 = create_relay_teams c1Table c1Events 4 ∧
    round_robin_assignment c8U 1 1 zeroCounts =
      round_robin_assignment c8U 1 1 zeroCounts :=
  C8_deterministic_given_order ["E1", "E2"] ["E1", "E2"] c8U c8O 1 1 zeroCounts
    c1Table c1Events 4 rfl

/-- C10: with an empty opponent frame the strategic assignor returns
exactly the result of the plain assignor on the same inputs — the same
assignment rows (hence no common-event restriction and no expected
placements) and the same final ledger. -/
theorem C10_empty_opponent_is_plain (u : List LongRow) (m p : ℕ) (k : Counts) :
    strategic_dual_meet_assignment u [] m p k = round_robin_assignment u m p k := by
  unfold strategic_dual_meet_assignment strategicWithOrder
  by_cases hu : u = []
  · subst hu
    simp [round_robin_assignment]
  · simp [hu]

/-- C7 (counterexample): the claim says the normalizer converts every
"H:MM:SS.ss" string into seconds, but the two-colon branch of
`time_to_seconds` is `float(s)`, which raises and is caught, yielding the
sentinel: 1 hour 2 minutes 3.50 seconds comes back as no-time instead of
3723.50. -/
theorem C7_hmmss_yields_sentinel :
    time_to_seconds "1:02:03.50" = none := by decide

/-- C7 (amended): the normalizer converts "SS.ss" (digits, a dot, digits)
to `int + frac/10^k` seconds and "M:SS.ss" to `60*minutes + seconds`; any
string with two or more colons — in particular every "H:MM:SS.ss" — and
the markers "", "DNS" and "NT" all yield the `none` sentinel instead of
raising. -/
theorem C7_time_normalizer_amended :
    (∀ ip fp : List Char, ip ≠ [] →
      (∀ c ∈ ip, isDigitChar c = true) → (∀ c ∈ fp, isDigitChar c = true) →
      timeToSecondsChars (ip ++ '.' :: fp) =
        some (decimalVal (digitsVal ip) (digitsVal fp) fp.length)) ∧
    (∀ mp ip fp : List Char, mp ≠ [] → ip ≠ [] →
      (∀ c ∈ mp, isDigitChar c = true) → (∀ c ∈ ip, isDigitChar c = true) →
      (∀ c ∈ fp, isDigitChar c = true) →
      timeToSecondsChars (mp ++ ':' :: (ip ++ '.' :: fp)) =
        some (intPlusRat ((digitsVal mp : ℤ) * 60)
          (decimalVal (digitsVal ip) (digitsVal fp) fp.length))) ∧
    (∀ l : List Char, 2 ≤ l.count ':' → timeToSecondsChars l = none) ∧
    time_to_seconds "" = none ∧
    time_to_seconds "DNS" = none ∧
    time_to_seconds "NT" = none :=
  ⟨timeToSecondsChars_ssss, timeToSecondsChars_mssss,
    timeToSecondsChars_two_colons, by decide, by decide, by decide⟩

/-- C7 (witness): the amended normalizer facts instantiated at "55.25"
(→ 55.25 s), "1:23.45" (→ 60 + 23.45 s) and the two-colon "1:02:03.50"
(→ sentinel). -/
theorem C7_time_normalizer_amended_witness :
    timeToSecondsChars ['5', '5', '.', '2', '5'] = some (decimalVal 55 25 2) ∧
    timeToSecondsChars ['1', ':', '2', '3', '.', '4', '5'] =
      some (intPlusRat 60 (decimalVal 23 45 2)) ∧
    timeToSecondsChars ['1', ':', '0', '2', ':', '0', '3', '.', '5', '0'] = none := by
  refine ⟨?_, ?_, ?_⟩
  · have h := C7_time_normalizer_amended.1 ['5', '5'] ['2', '5']
      (by decide) (by decide) (by decide)
    rw [(by decide : digitsVal ['5', '5'] = 55),
      (by decide : digitsVal ['2', '5'] = 25)] at h
    exact h
  · have h := C7_time_normalizer_amended.2.1 ['1'] ['2', '3'] ['4', '5']
      (by decide) (by decide) (by decide) (by decide) (by decide)
    rw [(by decide : ((digitsVal ['1'] : ℤ) * 60) = 60),
      (by decide : digitsVal ['2', '3'] = 23),
      (by decide : digitsVal ['4', '5'] = 45)] at h
    exact h
  · exact C7_time_normalizer_amended.2.2.1
      ['1', ':', '0', '2', ':', '0', '3', '.', '5', '0'] (by decide)

/-- C9: round-trip of the formatter and the parser.  For every
non-negative finite seconds value `q`, parsing the formatted string gives
back exactly the value of `q` rounded half-to-even at the second decimal
place (`roundHalfEven (qScale100 q) / 100`), and that value is within
1/200 of `q` — reproduction to two decimal places, confirming the claim. -/
theorem C9_roundtrip (q : ℚ) (h : 0 ≤ q) :
    timeToSecondsChars (seconds_to_time_string (some q)) =
      some ((roundHalfEven (qScale100 q) : ℚ) / 100) ∧
    |((roundHalfEven (qScale100 q) : ℚ) / 100) - q| ≤ 1 / 200 := by
  rw [qScale100_eq]
  have hm_eq : floorDiv60 q = ⌊q / 60⌋ := floorDiv60_eq q
  have hm0 : 0 ≤ floorDiv60 q := by
    rw [hm_eq]
    exact Int.floor_nonneg.2 (by positivity)
  have hfl : ((⌊q / 60⌋ : ℤ) : ℚ) ≤ q / 60 := Int.floor_le _
  have hfu : q / 60 < (⌊q / 60⌋ : ℚ) + 1 := Int.lt_floor_add_one _
  have hr_eq : intPlusRat (-(60 * floorDiv60 q)) q =
      q - 60 * ((floorDiv60 q : ℤ) : ℚ) := by
    rw [intPlusRat_eq]
    push_cast
    ring
  have hrlo : 0 ≤ q - 60 * ((floorDiv60 q : ℤ) : ℚ) := by
    rw [hm_eq]
    nlinarith [hfl]
  have hs100r : qScale100 (intPlusRat (-(60 * floorDiv60 q)) q) =
      100 * (q - 60 * ((floorDiv60 q : ℤ) : ℚ)) := by
    rw [qScale100_eq, hr_eq]
  have hc0 : 0 ≤ roundHalfEven (qScale100 (intPlusRat (-(60 * floorDiv60 q)) q)) := by
    rw [hs100r]
    exact roundHalfEven_nonneg _ (by nlinarith [hrlo])
  have hkey : roundHalfEven (100 * q) =
      roundHalfEven (qScale100 (intPlusRat (-(60 * floorDiv60 q)) q)) +
        6000 * floorDiv60 q := by
    rw [hs100r]
    have hsum : 100 * q =
        100 * (q - 60 * ((floorDiv60 q : ℤ) : ℚ)) +
          ((6000 * floorDiv60 q : ℤ) : ℚ) := by
      push_cast
      ring
    rw [hsum]
    exact roundHalfEven_add_int_even _ _ (by omega)
  constructor
  · simp only [seconds_to_time_string, secondsToTimeChars]
    by_cases hpos : 0 < floorDiv60 q
    · rw [if_pos hpos]
      rw [timeToSecondsChars_mm]
      congr 1
      rw [toNat_cast_q _ hm0, toNat_cast_q _ hc0, hkey]
      push_cast
      ring
    · rw [if_neg hpos]
      rw [timeToSecondsChars_renderCenti]
      have hmz : floorDiv60 q = 0 := by omega
      congr 1
      rw [toNat_cast_q _ hc0, hkey, hmz]
      push_cast
      ring
  · have h1 := abs_roundHalfEven_sub (100 * q)
    have h2 : ((roundHalfEven (100 * q) : ℚ) / 100) - q =
        ((roundHalfEven (100 * q) : ℚ) - 100 * q) / 100 := by ring
    rw [h2, abs_div, abs_of_pos (by norm_num : (0 : ℚ) < 100)]
    linarith

/-- C9 (witness): the round-trip applied at 83.456 seconds, which formats
as "1:23.46" and re-parses to 83.46. -/
theorem C9_roundtrip_witness :
    0 ≤ mkRat 83456 1000 ∧
    (timeToSecondsChars (seconds_to_time_string (some (mkRat 83456 1000))) =
      some ((roundHalfEven (qScale100 (mkRat 83456 1000)) : ℚ) / 100) ∧
     |((roundHalfEven (qScale100 (mkRat 83456 1000)) : ℚ) / 100) -
        mkRat 83456 1000| ≤ 1 / 200) :=
  ⟨by decide, C9_roundtrip (mkRat 83456 1000) (by decide)⟩

end ESP
